import Mathlib

/-!
Formal model of the graph_rag_project knowledge-graph pipeline.

Python strings are modelled as `List Char`; the helpers below reproduce the
exact semantics of the Python string operations used by `src/tools.py`
(`str.strip`, `str.split`, `str.replace`, `str.find`, `str.lower`).
All definitions are executable so that concrete inputs can be evaluated.
-/

/-- Characters stripped by Python `str.strip()` (the ASCII whitespace set). -/
def isPyWs (c : Char) : Bool :=
  c = ' ' || c = '\t' || c = '\n' || c = '\r' || c = '\x0b' || c = '\x0c'

/-- Python `str.strip()` on a character list. -/
def pyStrip (s : List Char) : List Char :=
  ((s.dropWhile isPyWs).reverse.dropWhile isPyWs).reverse

/-- Python `str.strip(chars)` with an explicit strip set. -/
def pyStripChars (cs : List Char) (s : List Char) : List Char :=
  ((s.dropWhile (cs.contains ·)).reverse.dropWhile (cs.contains ·)).reverse

/-- Python `str.lower()` (the sources only lower-case ASCII tokens). -/
def pyLower (s : List Char) : List Char :=
  s.map Char.toLower

/-- Index of the leftmost occurrence of `sep` in `s`
(Python `str.find` for a nonempty pattern). -/
def firstOcc (sep : List Char) : List Char → Option Nat
  | [] => if sep.isEmpty then some 0 else none
  | c :: cs =>
    if List.isPrefixOf sep (c :: cs) then some 0
    else (firstOcc sep cs).map (· + 1)

/-- True when `sub` occurs as a contiguous substring of `s`
(Python `sub in s`). -/
def containsSub (sub s : List Char) : Bool :=
  (firstOcc sub s).isSome

/-- Worker for `pySplit`: structural recursion on fuel (each step drops at
least one character, so `s.length + 1` units of fuel always suffice). -/
def pySplitAux (sep : List Char) : Nat → List Char → List (List Char)
  | 0, s => [s]
  | fuel + 1, s =>
    match firstOcc sep s with
    | none => [s]
    | some i => s.take i :: pySplitAux sep fuel (s.drop (i + sep.length))

/-- Python `str.split(sep)` for a nonempty separator: split at each
leftmost non-overlapping occurrence of `sep`. -/
def pySplit (sep : List Char) (s : List Char) : List (List Char) :=
  if sep.isEmpty then [s] else pySplitAux sep (s.length + 1) s

/-- Python `s.replace(pat, "")` for a nonempty pattern: equivalent to
`"".join(s.split(pat))`, i.e. deleting every occurrence of `pat`. -/
def removeAll (pat s : List Char) : List Char :=
  (pySplit pat s).flatten

/-!
Extraction-record model (`parse_extraction_output` in `src/tools.py`).

An entity record carries 4 fields, a relationship record 5; the fifth
relationship field is coerced with Python `float` / `int`.  `float(s)`
is modelled in full on the ASCII fragment: optional sign, the
case-insensitive `inf` / `infinity` / `nan` spellings, decimal literals
with single underscores between digits, and correctly-rounded IEEE-754
binary64 conversion (round to nearest, ties to even, overflow to
infinity, underflow to zero), with the resulting double represented by
its exact rational value; `is_integer()` and `int()` then act on that
rounded double.  CPython additionally accepts non-ASCII decimal digits
and Unicode whitespace; as everywhere in this development, strings are
treated over the ASCII fragment.
-/

/-- One parsed entity record: `record_type` is always `"entity"` in the
source dict, so only the three payload fields are kept. -/
structure EntityRec where
  entity_name : String
  entity_type : String
  entity_description : String
deriving DecidableEq

/-- The value of a Python float: a finite binary64 value given by its
exact rational value, or one of the three non-finite values. -/
inductive PyFloatVal where
  | finite (q : Rat)
  | inf
  | ninf
  | nan
deriving DecidableEq

/-- The coerced relationship-strength value: Python `int`, `float`, or the
raw string when numeric coercion fails. -/
inductive Strength where
  | int (n : Int)
  | float (v : PyFloatVal)
  | str (s : String)
deriving DecidableEq

/-- One parsed relationship record. -/
structure RelRec where
  source_entity : String
  target_entity : String
  relationship_description : String
  relationship_strength : Strength
deriving DecidableEq

/-- A record parsed from one split segment. -/
inductive ParsedRec where
  | entity (e : EntityRec)
  | rel (r : RelRec)
deriving DecidableEq

/-- Value of a nonempty digit string. -/
def digitsVal (ds : List Char) : Nat :=
  ds.foldl (fun a c => 10 * a + (c.toNat - '0'.toNat)) 0

/-- PEP 515 underscore rule of Python numeric literals: every underscore
must stand directly between two digits. -/
def underscoresOkAux : Option Char → List Char → Bool
  | _, [] => true
  | prev, c :: rest =>
    if c = '_' then
      match prev, rest with
      | some p, n :: _ => p.isDigit && n.isDigit && underscoresOkAux (some c) rest
      | _, _ => false
    else underscoresOkAux (some c) rest

def underscoresOk (t : List Char) : Bool :=
  underscoresOkAux none t

/-- `n / d ≥ 2 ^ e` on exact rationals, by integer comparison. -/
def qGePow2 (n d : Nat) (e : Int) : Bool :=
  if 0 ≤ e then d * 2 ^ e.toNat ≤ n else d ≤ n * 2 ^ (-e).toNat

/-- Raise the binade exponent while `n / d ≥ 2 ^ (e + 53)`. -/
def findExpUp : Nat → Nat → Nat → Int → Int
  | 0, _, _, e => e
  | fuel + 1, n, d, e =>
    if qGePow2 n d (e + 53) then findExpUp fuel n d (e + 1) else e

/-- Lower the binade exponent while `n / d < 2 ^ (e + 52)`, stopping at
the subnormal floor `-1074`. -/
def findExpDown : Nat → Nat → Nat → Int → Int
  | 0, _, _, e => e
  | fuel + 1, n, d, e =>
    if e ≤ -1074 then e
    else if qGePow2 n d (e + 52) then e
    else findExpDown fuel n d (e - 1)

/-- Round the positive rational `n / d` to IEEE-754 binary64 (round to
nearest, ties to even): `none` on overflow to infinity, otherwise the
mantissa/exponent pair of the rounded value ((0, 0) on underflow to
zero).  The fuel `2400` of the binade search covers the whole exponent
range `[-1074, 972]` reachable after the two range guards. -/
def roundB64Pos (n d : Nat) : Option (Nat × Int) :=
  if qGePow2 n d 1024 then none
  else if ¬qGePow2 n d (-1075) then some (0, 0)
  else
    let e := findExpDown 2400 n d (findExpUp 2400 n d 0)
    let xy : Nat × Nat :=
      if 0 ≤ e then (n, d * 2 ^ e.toNat) else (n * 2 ^ (-e).toNat, d)
    let m0 := xy.1 / xy.2
    let twice := 2 * xy.1
    let mid := (2 * m0 + 1) * xy.2
    let m : Nat :=
      if mid < twice then m0 + 1
      else if twice < mid then m0
      else if m0 % 2 = 0 then m0 else m0 + 1
    let me : Nat × Int := if m = 2 ^ 53 then (2 ^ 52, e + 1) else (m, e)
    if 971 < me.2 then none else some me

/-- The exact rational value of a signed binary64 mantissa/exponent pair. -/
def b64ToRat (sign : Int) (me : Nat × Int) : Rat :=
  if 0 ≤ me.2 then Rat.divInt (sign * Int.ofNat (me.1 * 2 ^ me.2.toNat)) 1
  else Rat.divInt (sign * Int.ofNat me.1) (Int.ofNat (2 ^ (-me.2).toNat))

/-- Round an exact rational to the binary64 value Python produces. -/
def roundB64 (q : Rat) : PyFloatVal :=
  if q.num = 0 then .finite 0
  else
    match roundB64Pos q.num.natAbs q.den with
    | none => if q.num < 0 then .ninf else .inf
    | some me => .finite (b64ToRat (if q.num < 0 then -1 else 1) me)

/-- Python `float(s)`: strip, optional sign, the case-insensitive
`inf` / `infinity` / `nan` spellings, or a decimal literal (with single
underscores between digits) evaluated exactly and rounded to binary64.
Returns `none` exactly when Python raises `ValueError`. -/
def pyFloat (s : List Char) : Option PyFloatVal :=
  let t0 := pyStrip s
  if ¬underscoresOk t0 then none
  else
    let t := t0.filter (fun c => c ≠ '_')
    let signed : Bool × List Char :=
      match t with
      | '+' :: r => (false, r)
      | '-' :: r => (true, r)
      | r => (false, r)
    let neg := signed.1
    let t1 := signed.2
    let low := pyLower t1
    if low = "inf".toList ∨ low = "infinity".toList then
      some (if neg then .ninf else .inf)
    else if low = "nan".toList then some .nan
    else
      let sign : Int := if neg then -1 else 1
      let ip := t1.takeWhile Char.isDigit
      let rest1 := t1.dropWhile Char.isDigit
      let frest : List Char × List Char :=
        match rest1 with
        | '.' :: r => (r.takeWhile Char.isDigit, r.dropWhile Char.isDigit)
        | r => ([], r)
      let fp := frest.1
      let rest2 := frest.2
      let hasPoint : Bool := match rest1 with | '.' :: _ => true | _ => false
      if ip.isEmpty && (fp.isEmpty || !hasPoint) then none
      else
        let mantNum : Int := sign * Int.ofNat (digitsVal (ip ++ fp))
        let mantDen : Int := Int.ofNat (10 ^ fp.length)
        match rest2 with
        | [] => some (roundB64 (Rat.divInt mantNum mantDen))
        | e :: r =>
          if e = 'e' ∨ e = 'E' then
            let esr : Int × List Char :=
              match r with
              | '+' :: r2 => (1, r2)
              | '-' :: r2 => (-1, r2)
              | r2 => (1, r2)
            let ed := esr.2.takeWhile Char.isDigit
            if ed.isEmpty ∨ ¬(esr.2.dropWhile Char.isDigit).isEmpty then none
            else
              let ex : Int := esr.1 * Int.ofNat (digitsVal ed)
              if 0 ≤ ex then
                some (roundB64
                  (Rat.divInt (mantNum * Int.ofNat (10 ^ ex.toNat)) mantDen))
              else
                some (roundB64
                  (Rat.divInt mantNum (mantDen * Int.ofNat (10 ^ (-ex).toNat))))
          else none

/-- Python `float.is_integer()`: true for a finite double whose exact
value is an integer, false for infinities and nan. -/
def pyIsInteger : PyFloatVal → Bool
  | .finite q => q.den == 1
  | _ => false

/-- Python `int(x)` on a float for which `is_integer()` holds. -/
def pyIntOf : PyFloatVal → Int
  | .finite q => q.num
  | _ => 0

/-- The `try: strength = float(tokens[4]); if strength.is_integer():
strength = int(strength) ... except ValueError` coercion from the
relationship branch of `parse_extraction_output`. -/
def coerceStrength (tok : List Char) : Strength :=
  match pyFloat tok with
  | some v => if pyIsInteger v then .int (pyIntOf v) else .float v
  | none => .str (String.mk tok)

/-- The strip set of `tokens[0].strip(' "\'')`. -/
def tokenStripSet : List Char := [' ', '"', '\'']

/-- Tokenization of one raw record inside the loop of
`parse_extraction_output`: peel one layer of surrounding parentheses,
strip, split on the tuple delimiter, and trim each field. -/
def recFields (tupleDelim : List Char) (rec0 : List Char) : List (List Char) :=
  let rec1 :=
    if rec0.head? = some '(' ∧ rec0.getLast? = some ')' then (rec0.drop 1).dropLast
    else rec0
  (pySplit tupleDelim (pyStrip rec1)).map pyStrip

/-- The loop body of `parse_extraction_output` applied to one raw record
(the element of `raw_records`, already stripped by the comprehension):
skip empties, tokenize with `recFields`, and dispatch on the first token. -/
def classifyRecord (tupleDelim : List Char) (rec0 : List Char) : Option ParsedRec :=
  if rec0.isEmpty then none
  else
    let tokens := recFields tupleDelim rec0
    match tokens with
    | [] => none
    | t0 :: _ =>
      let recType := pyLower (pyStripChars tokenStripSet t0)
      if recType = "entity".toList then
        match tokens with
        | [_, t1, t2, t3] =>
          some (.entity ⟨String.mk t1, String.mk t2, String.mk t3⟩)
        | _ => none
      else if recType = "relationship".toList then
        match tokens with
        | [_, t1, t2, t3, t4] =>
          some (.rel ⟨String.mk t1, String.mk t2, String.mk t3, coerceStrength t4⟩)
        | _ => none
      else none

/-- The literal record-delimiter placeholder. -/
def recordDelimiterTok : List Char := "{record_delimiter}".toList

/-- The literal tuple-delimiter placeholder. -/
def tupleDelimiterTok : List Char := "{tuple_delimiter}".toList

/-- The literal completion marker removed before parsing. -/
def completionMarkerTok : List Char := "{completion_delimiter}".toList

/-- Record-delimiter auto-detection cascade of `parse_extraction_output`
(applied to the preprocessed output string). -/
def detectRecordDelim (s : List Char) : List Char :=
  if containsSub recordDelimiterTok s then recordDelimiterTok
  else if containsSub ['|'] s then ['|']
  else ['\n']

/-- Tuple-delimiter auto-detection cascade of `parse_extraction_output`
(applied to the preprocessed output string). -/
def detectTupleDelim (s : List Char) : List Char :=
  if containsSub tupleDelimiterTok s then tupleDelimiterTok
  else if containsSub [';'] s then [';']
  else ['\t']

/-- Preprocessing of the raw output: remove every occurrence of the
completion marker (the source guards the `replace` with an `in` test,
which is extensionally the same), then strip. -/
def preprocessOutput (s : List Char) : List Char :=
  pyStrip (removeAll completionMarkerTok s)

/-- The per-record stage of `parse_extraction_output`: classify every raw
record and partition the parsed records into the entity list and the
relationship list, each in order of appearance. -/
def parseRecords (tupleDelim : List Char) (raws : List (List Char)) :
    List EntityRec × List RelRec :=
  let parsed := raws.filterMap (classifyRecord tupleDelim)
  (parsed.filterMap (fun pr => match pr with | .entity e => some e | .rel _ => none),
   parsed.filterMap (fun pr => match pr with | .rel r => some r | .entity _ => none))

/-- `parse_extraction_output(output_str, record_delimiter, tuple_delimiter)`
from `src/tools.py`: preprocess, auto-detect missing delimiters, split into
raw records, strip them, and classify. -/
def parse_extraction_output (output : String)
    (record_delimiter tuple_delimiter : Option String := none) :
    List EntityRec × List RelRec :=
  let s := preprocessOutput output.toList
  let rd := match record_delimiter with
    | some r => r.toList
    | none => detectRecordDelim s
  let td := match tuple_delimiter with
    | some t => t.toList
    | none => detectTupleDelim s
  parseRecords td ((pySplit rd s).map pyStrip)

/-- Stated from the claim's wording (C5): a record survives as an entity
record iff its first token — case-insensitive and quote-stripped — is
"entity" and it has exactly 4 fields; the payload is fields 2 to 4. -/
def claimEntityView (tupleDelim : List Char) (rec0 : List Char) : Option EntityRec :=
  match recFields tupleDelim rec0 with
  | [t0, t1, t2, t3] =>
    if pyLower (pyStripChars tokenStripSet t0) = "entity".toList then
      some ⟨String.mk t1, String.mk t2, String.mk t3⟩
    else none
  | _ => none

/-- Stated from the claim's wording (C5): a record survives as a
relationship record iff its first token — case-insensitive and
quote-stripped — is "relationship" and it has exactly 5 fields. -/
def claimRelView (tupleDelim : List Char) (rec0 : List Char) : Option RelRec :=
  match recFields tupleDelim rec0 with
  | [t0, t1, t2, t3, t4] =>
    if pyLower (pyStripChars tokenStripSet t0) = "relationship".toList then
      some ⟨String.mk t1, String.mk t2, String.mk t3, coerceStrength t4⟩
    else none
  | _ => none

/-- Stated from the claim's wording (C6): the record-delimiter detection
order applied to the raw input string itself. -/
def claimDetectRecordDelim (rawInput : List Char) : List Char :=
  if containsSub recordDelimiterTok rawInput then recordDelimiterTok
  else if containsSub ['|'] rawInput then ['|']
  else ['\n']

/-- Stated from the claim's wording (C6): the tuple-delimiter detection
order applied to the raw input string itself. -/
def claimDetectTupleDelim (rawInput : List Char) : List Char :=
  if containsSub tupleDelimiterTok rawInput then tupleDelimiterTok
  else if containsSub [';'] rawInput then [';']
  else ['\t']

/-!
Serialization side of the C4 round-trip: raw extraction tuples written in
the expected `("entity"<td>...<td>...)` format, joined by the record
delimiter.  The serializer is stated from the record format documented in
`parse_extraction_output`'s docstring and the extraction prompt.
-/

/-- A raw extraction tuple before serialization (all fields strings). -/
inductive RawRec where
  | ent (name typ desc : List Char)
  | rel (src tgt desc strength : List Char)
deriving DecidableEq

/-- One serialized record in the expected format. -/
def serializeRaw (td : List Char) : RawRec → List Char
  | .ent n t d =>
    '(' :: ("\"entity\"".toList ++ td ++ n ++ td ++ t ++ td ++ d) ++ [')']
  | .rel s t d w =>
    '(' :: ("\"relationship\"".toList ++ td ++ s ++ td ++ t ++ td ++ d ++ td ++ w) ++ [')']

/-- A full serialized extraction output: records joined by the record
delimiter. -/
def serializeOutput (rd td : List Char) (records : List RawRec) : List Char :=
  List.intercalate rd (records.map (serializeRaw td))

/-- The entity record a raw tuple should parse back to. -/
def rawEntView : RawRec → Option EntityRec
  | .ent n t d => some ⟨String.mk n, String.mk t, String.mk d⟩
  | .rel _ _ _ _ => none

/-- The relationship record a raw tuple should parse back to (the strength
field coerced as in the source). -/
def rawRelView : RawRec → Option RelRec
  | .ent _ _ _ => none
  | .rel s t d w => some ⟨String.mk s, String.mk t, String.mk d, coerceStrength w⟩

/-- The parsed record a raw tuple should classify to. -/
def rawParsedView : RawRec → ParsedRec
  | .ent n t d => .entity ⟨String.mk n, String.mk t, String.mk d⟩
  | .rel s t d w => .rel ⟨String.mk s, String.mk t, String.mk d, coerceStrength w⟩

/-- `true` when no nonempty proper prefix of `p` is also a suffix of `p`
(an unbordered word); splitting a join on an unbordered separator cannot
match across a concatenation boundary. -/
def unborderedB (p : List Char) : Bool :=
  (List.range p.length).all
    (fun k => k = 0 || decide (p.take k ≠ p.drop (p.length - k)))

/-- A well-formed serialized field: trimmed, nonempty, and free of the
tuple delimiter. -/
def goodField (td f : List Char) : Prop :=
  pyStrip f = f ∧ f ≠ [] ∧ containsSub td f = false

/-- All fields of a raw tuple are well-formed. -/
def goodRec (td : List Char) : RawRec → Prop
  | .ent n t d => goodField td n ∧ goodField td t ∧ goodField td d
  | .rel s t d w => goodField td s ∧ goodField td t ∧ goodField td d ∧ goodField td w

instance (td f : List Char) : Decidable (goodField td f) :=
  inferInstanceAs (Decidable (_ ∧ _ ∧ _))

instance (td : List Char) (r : RawRec) : Decidable (goodRec td r) :=
  match r with
  | .ent _ _ _ => inferInstanceAs (Decidable (_ ∧ _ ∧ _))
  | .rel _ _ _ _ => inferInstanceAs (Decidable (_ ∧ _ ∧ _ ∧ _))

/-!
JSON model (`extract_json` and `generate_community_report_with_llm` in
`src/tools.py`).

`json.loads` is modelled as a fuel-based recursive-descent parser over the
JSON grammar Python accepts: the four JSON whitespace characters, objects,
arrays, strings with the standard escapes, strict rejection of unescaped
control characters, numbers (int when the literal has neither fraction nor
exponent, float otherwise, evaluated exactly as rationals), `true`,
`false`, `null`, and Python's `NaN` / `Infinity` / `-Infinity` extensions
as dedicated constructors.  Objects keep their key order (Python's dict
would collapse duplicate keys; none of the claims' inputs has them), and a
`\uXXXX` escape becomes the character with that code (surrogate-pair
combination is not modelled).  Parsing fails exactly where Python raises
`json.JSONDecodeError`, including the trailing-data check.
-/

/-- Python JSON values. -/
inductive Json where
  | null
  | bool (b : Bool)
  | int (n : Int)
  | float (q : Rat)
  | str (s : String)
  | arr (xs : List Json)
  | obj (kvs : List (String × Json))
  | nan
  | inf
  | ninf

/-- The four whitespace characters skipped by Python's JSON scanner. -/
def isJsonWs (c : Char) : Bool :=
  c = ' ' || c = '\t' || c = '\n' || c = '\r'

/-- Skip JSON whitespace. -/
def skipWs (s : List Char) : List Char :=
  s.dropWhile isJsonWs

/-- Hexadecimal digit value. -/
def hexVal (c : Char) : Option Nat :=
  if '0' ≤ c ∧ c ≤ '9' then some (c.toNat - '0'.toNat)
  else if 'a' ≤ c ∧ c ≤ 'f' then some (c.toNat - 'a'.toNat + 10)
  else if 'A' ≤ c ∧ c ≤ 'F' then some (c.toNat - 'A'.toNat + 10)
  else none

/-- Parse the body of a JSON string (after the opening quote): returns the
decoded characters and the remainder after the closing quote. -/
def parseJString : Nat → List Char → Option (List Char × List Char)
  | 0, _ => none
  | fuel + 1, s =>
    match s with
    | [] => none
    | '"' :: r => some ([], r)
    | '\\' :: e :: r =>
      let esc : Option (Char × List Char) :=
        match e, r with
        | '"', _ => some ('"', r)
        | '\\', _ => some ('\\', r)
        | '/', _ => some ('/', r)
        | 'b', _ => some ('\x08', r)
        | 'f', _ => some ('\x0c', r)
        | 'n', _ => some ('\n', r)
        | 'r', _ => some ('\r', r)
        | 't', _ => some ('\t', r)
        | 'u', h1 :: h2 :: h3 :: h4 :: r2 =>
          match hexVal h1, hexVal h2, hexVal h3, hexVal h4 with
          | some v1, some v2, some v3, some v4 =>
            some (Char.ofNat (((v1 * 16 + v2) * 16 + v3) * 16 + v4), r2)
          | _, _, _, _ => none
        | _, _ => none
      match esc with
      | none => none
      | some (c, r2) =>
        (parseJString fuel r2).map (fun p => (c :: p.1, p.2))
    | c :: r =>
      if c.toNat < 32 then none
      else (parseJString fuel r).map (fun p => (c :: p.1, p.2))

/-- Parse a JSON number at the head of `s` (sign already included), per the
number regex of Python's json module. -/
def parseJNumber (s : List Char) : Option (Json × List Char) :=
  let (neg, s1) : Bool × List Char :=
    match s with
    | '-' :: r => (true, r)
    | r => (false, r)
  let ipr : Option (List Char × List Char) :=
    match s1 with
    | '0' :: r => some (['0'], r)
    | c :: r =>
      if c.isDigit then some (c :: r.takeWhile Char.isDigit, r.dropWhile Char.isDigit)
      else none
    | [] => none
  match ipr with
  | none => none
  | some (ip, r1) =>
    let (fp, r2) : List Char × List Char :=
      match r1 with
      | '.' :: d :: r =>
        if d.isDigit then (d :: r.takeWhile Char.isDigit, r.dropWhile Char.isDigit)
        else ([], r1)
      | _ => ([], r1)
    let (ep, r3) : List Char × List Char :=
      match r2 with
      | e :: '+' :: d :: r =>
        if (e = 'e' ∨ e = 'E') ∧ d.isDigit then
          ('+' :: d :: r.takeWhile Char.isDigit, r.dropWhile Char.isDigit)
        else ([], r2)
      | e :: '-' :: d :: r =>
        if (e = 'e' ∨ e = 'E') ∧ d.isDigit then
          ('-' :: d :: r.takeWhile Char.isDigit, r.dropWhile Char.isDigit)
        else ([], r2)
      | e :: d :: r =>
        if (e = 'e' ∨ e = 'E') ∧ d.isDigit then
          ('+' :: d :: r.takeWhile Char.isDigit, r.dropWhile Char.isDigit)
        else ([], r2)
      | _ => ([], r2)
    let sign : Int := if neg then -1 else 1
    if fp.isEmpty ∧ ep.isEmpty then
      some (Json.int (sign * Int.ofNat (digitsVal ip)), r1)
    else
      let mantNum : Int := sign * Int.ofNat (digitsVal (ip ++ fp))
      let mantDen : Int := Int.ofNat (10 ^ fp.length)
      let q : Rat :=
        match ep with
        | '+' :: ds => Rat.divInt (mantNum * Int.ofNat (10 ^ digitsVal ds)) mantDen
        | '-' :: ds => Rat.divInt mantNum (mantDen * Int.ofNat (10 ^ digitsVal ds))
        | _ => Rat.divInt mantNum mantDen
      some (Json.float q, r3)

/-- Member loop of an object (entered after `{` when the object is not
empty, or after a `,`): parse `"key" : value` then `,` or `}`. -/
def jLoopMembers (pv : List Char → Option (Json × List Char)) :
    Nat → List Char → List (String × Json) → Option (Json × List Char)
  | 0, _, _ => none
  | fuel + 1, s, acc =>
    match skipWs s with
    | '"' :: r =>
      match parseJString (r.length + 1) r with
      | none => none
      | some (key, r2) =>
        match skipWs r2 with
        | ':' :: r4 =>
          match pv r4 with
          | none => none
          | some (v, r5) =>
            match skipWs r5 with
            | ',' :: r7 => jLoopMembers pv fuel r7 (acc ++ [(String.mk key, v)])
            | '}' :: r7 => some (Json.obj (acc ++ [(String.mk key, v)]), r7)
            | _ => none
        | _ => none
    | _ => none

/-- Item loop of an array (entered after `[` when the array is not empty,
or after a `,`). -/
def jLoopItems (pv : List Char → Option (Json × List Char)) :
    Nat → List Char → List Json → Option (Json × List Char)
  | 0, _, _ => none
  | fuel + 1, s, acc =>
    match pv s with
    | none => none
    | some (v, r) =>
      match skipWs r with
      | ',' :: r2 => jLoopItems pv fuel r2 (acc ++ [v])
      | ']' :: r2 => some (Json.arr (acc ++ [v]), r2)
      | _ => none

/-- Parse one JSON value (leading whitespace allowed); the fuel bounds the
nesting depth, so `length + 1` always suffices. -/
def parseJValue : Nat → List Char → Option (Json × List Char)
  | 0, _ => none
  | fuel + 1, s0 =>
    let s := skipWs s0
    match s with
    | [] => none
    | '\x7b' :: r =>
      match skipWs r with
      | '\x7d' :: r2 => some (Json.obj [], r2)
      | _ => jLoopMembers (parseJValue fuel) (r.length + 1) r []
    | '[' :: r =>
      match skipWs r with
      | ']' :: r2 => some (Json.arr [], r2)
      | _ => jLoopItems (parseJValue fuel) (r.length + 1) r []
    | '"' :: r =>
      (parseJString (r.length + 1) r).map (fun p => (Json.str (String.mk p.1), p.2))
    | 't' :: r =>
      if List.isPrefixOf "rue".toList r then some (Json.bool true, r.drop 3) else none
    | 'f' :: r =>
      if List.isPrefixOf "alse".toList r then some (Json.bool false, r.drop 4) else none
    | 'n' :: r =>
      if List.isPrefixOf "ull".toList r then some (Json.null, r.drop 3) else none
    | 'N' :: r =>
      if List.isPrefixOf "aN".toList r then some (Json.nan, r.drop 2) else none
    | 'I' :: r =>
      if List.isPrefixOf "nfinity".toList r then some (Json.inf, r.drop 7) else none
    | '-' :: 'I' :: r =>
      if List.isPrefixOf "nfinity".toList r then some (Json.ninf, r.drop 7) else none
    | _ => parseJNumber s

/-- Python `json.loads` on a string: parse one value and reject trailing
data. -/
def jsonLoads (s : List Char) : Option Json :=
  match parseJValue (s.length + 1) s with
  | none => none
  | some (v, rest) => if (skipWs rest).isEmpty then some v else none

/-- Python `str.removeprefix`. -/
def removePre (pre s : List Char) : List Char :=
  if List.isPrefixOf pre s then s.drop pre.length else s

/-- Python `str.removesuffix`. -/
def removeSuf (suf s : List Char) : List Char :=
  if List.isSuffixOf suf s then s.take (s.length - suf.length) else s

/-- Stage 1 of `extract_json`: strip a ```json fence pair and parse
directly. -/
def extractStage1 (t : List Char) : Option Json :=
  jsonLoads (pyStrip (removeSuf "```".toList (removePre "```json".toList t)))

/-- One attempt of the stage-2 regex at a fixed start, with ws-run length
exactly `k`: require a newline after the run, then the lazy group runs to
the first "\n```". -/
def fencedTryK (r : List Char) (k : Nat) : Option (List Char) :=
  match (r.drop k).head? with
  | some '\n' =>
    match firstOcc "\n```".toList (r.drop (k + 1)) with
    | some m => some ((r.drop (k + 1)).take m)
    | none => none
  | _ => none

/-- Match of `` ```json\s*\n(.*?)\n``` `` (DOTALL) starting exactly here:
greedy `\s*` (longest first) with backtracking, lazy group. -/
def fencedTryAt (s : List Char) : Option (List Char) :=
  if List.isPrefixOf "```json".toList s then
    let r := s.drop 7
    let maxw := (r.takeWhile isPyWs).length
    ((List.range (maxw + 1)).reverse).findSome? (fencedTryK r)
  else none

/-- `re.search` for the stage-2 pattern: leftmost match wins. -/
def fencedSearch : List Char → Option (List Char)
  | [] => none
  | c :: rest =>
    match fencedTryAt (c :: rest) with
    | some g => some g
    | none => fencedSearch rest

/-- Stage 2 of `extract_json`: regex extraction of a fenced JSON block,
then parse of the stripped group. -/
def extractStage2 (t : List Char) : Option Json :=
  (fencedSearch t).bind (fun g => jsonLoads (pyStrip g))

/-- The balanced-span scan of stages 3 and 4: walk the characters keeping a
counter, return the length up to and including the closer that balances the
count, `none` when the scan never balances (the source then slices
`text[start:start]`, the empty string). -/
def scanBalanceAux (op cl : Char) : List Char → Int → Nat → Option Nat
  | [], _, _ => none
  | c :: rest, count, pos =>
    let count2 : Int := if c = op then count + 1 else if c = cl then count - 1 else count
    if c = cl ∧ count2 = 0 then some (pos + 1)
    else scanBalanceAux op cl rest count2 (pos + 1)

/-- Stage 3 / stage 4 of `extract_json`: slice from the first opener
through the balancing closer and parse it. -/
def extractBalanced (op cl : Char) (t : List Char) : Option Json :=
  match firstOcc [op] t with
  | none => none
  | some start =>
    let sub := t.drop start
    let sliceLen : Nat :=
      match scanBalanceAux op cl sub 0 0 with
      | some n => n
      | none => 0
    jsonLoads (sub.take sliceLen)

/-- The hardcoded fallback report of `extract_json`. -/
def fallbackReport : Json :=
  Json.obj
    [("title", .str "Unknown Community"),
     ("summary", .str "Failed to parse community summary"),
     ("rating", .float 5),
     ("rating_explanation", .str "Default rating due to parsing failure"),
     ("findings", .arr [])]

/-- `extract_json` from `src/tools.py`: the four-stage defensive cascade,
falling back to the hardcoded report. -/
def extract_json (text : String) : Json :=
  let t := text.toList
  match extractStage1 t with
  | some v => v
  | none =>
    match extractStage2 t with
    | some v => v
    | none =>
      match extractBalanced '\x7b' '\x7d' t with
      | some v => v
      | none =>
        match extractBalanced '[' ']' t with
        | some v => v
        | none => fallbackReport

/-- Python `json.loads` applied to an already-parsed JSON value, as in
`json.loads(json_str)` where `json_str = extract_json(response)`: only a
string argument can be decoded; any other type raises `TypeError`
(modelled as `none`). -/
def pyJsonLoadsValue : Json → Option Json
  | .str s => jsonLoads s.toList
  | _ => none

/-- `generate_community_report_with_llm` from `src/tools.py`, as a function
of the outcome of the language-model invocation: on an invocation error the
`except` branch returns `{}`; on success the source computes
`json.loads(extract_json(response))`, whose failure (of either kind) is
caught by the same `except` and also yields `{}`. -/
def generate_community_report_with_llm (resp : Except Unit String) : Json :=
  match resp with
  | .error _ => Json.obj []
  | .ok text =>
    match pyJsonLoadsValue (extract_json text) with
    | some v => v
    | none => Json.obj []

/-!
`chunk_text` (`src/.ipynb_checkpoints/utils_strand-checkpoint.py`): the
sliding-window chunker.  The loop is modelled with explicit fuel returning
`none` on exhaustion; the termination claim C10 is that `length + 1` fuel
always suffices because the loop index strictly increases.  Sizes are
modelled as `ℕ` per the claim's preconditions `chunk_size ≥ 1`,
`overlap ≥ 0`; Python's negative `left_index` (loop skipped, result 0)
coincides with the truncated-subtraction scan, which also returns 0.
-/

/-- Python `text.find(" ", start)` mapped to the list model (`none` for
Python's `-1`). -/
def pyFind (c : Char) (text : List Char) (start : Nat) : Option Nat :=
  (firstOcc [c] (text.drop start)).map (start + ·)

/-- The backward scan for `prev_whitespace`: the largest position `≤ k`
holding a space, defaulting to 0. -/
def prevWsScan (text : List Char) : Nat → Nat
  | 0 => 0
  | k + 1 => if text.getD (k + 1) 'x' = ' ' then k + 1 else prevWsScan text k

/-- The `while index < len(text)` loop of `chunk_text`, with fuel. -/
def chunkTextAux (text : List Char) (chunk_size overlap : Nat) (splitWs : Bool) :
    Nat → Nat → List (List Char) → Option (List (List Char))
  | 0, _, _ => none
  | fuel + 1, index, acc =>
    if index < text.length then
      if splitWs then
        let prev := prevWsScan text (index - overlap)
        let next : Nat :=
          match pyFind ' ' text (index + chunk_size) with
          | some j => j
          | none => text.length
        let chunk := pyStrip ((text.drop prev).take (next - prev))
        chunkTextAux text chunk_size overlap splitWs fuel (next + 1) (acc ++ [chunk])
      else
        let start := index + 1 - overlap
        let stop := min (index + chunk_size + overlap) text.length
        let chunk := pyStrip ((text.drop start).take (stop - start))
        chunkTextAux text chunk_size overlap splitWs fuel (index + chunk_size) (acc ++ [chunk])
    else some acc

/-- `chunk_text(text, chunk_size, overlap, split_on_whitespace_only)`,
run with `length + 1` fuel. -/
def chunk_text (text : String) (chunk_size overlap : Nat)
    (split_on_whitespace_only : Bool := true) : Option (List String) :=
  (chunkTextAux text.toList chunk_size overlap split_on_whitespace_only
    (text.toList.length + 1) 0 []).map (List.map String.mk)

/-!
Community detection (`calculate_communities` in `src/tools.py`).

The store interaction is factored out: the pure core takes the rows of the
entity/connections query — one `(entity, connections)` pair per row, a
connection being `none` for a Cypher NULL — and produces the community
assignment written back to the store together with the statistics dict.
Python dicts are modelled as association lists in insertion order
(re-assignment keeps the original position); the iteration order of the
Python set `all_entities` is modelled as first-insertion order (CPython
iterates a set of strings in a hash-dependent but fixed order; no claim
depends on which order is used).  The recursive `find` with path
compression is modelled with fuel `|parent| + 1`, which the invariant
proofs show always suffices.
-/

/-- Association-list lookup (Python dict access). -/
def alookup : List (String × String) → String → Option String
  | [], _ => none
  | (k, v) :: rest, x => if k = x then some v else alookup rest x

/-- In-place value update for an existing key (Python `d[x] = v` when `x`
is already a key: position preserved). -/
def aset : List (String × String) → String → String → List (String × String)
  | [], _, _ => []
  | (k, v) :: rest, x, r => if k = x then (k, r) :: rest else (k, v) :: aset rest x r

/-- The recursive `find` with path compression, with fuel:
`if x not in parent: parent[x] = x`, then
`if parent[x] != x: parent[x] = find(parent[x])`, `return parent[x]`. -/
def findUF : Nat → List (String × String) → String → List (String × String) × String
  | 0, σ, x => (σ, x)
  | fuel + 1, σ, x =>
    match alookup σ x with
    | none => (σ ++ [(x, x)], x)
    | some p =>
      if p = x then (σ, x)
      else
        let res := findUF fuel σ p
        (aset res.1 x res.2, res.2)

/-- `find` with always-sufficient fuel. -/
def find (σ : List (String × String)) (x : String) : List (String × String) × String :=
  findUF (σ.length + 1) σ x

/-- `union(x, y)`: link the two roots when they differ. -/
def unionUF (σ : List (String × String)) (x y : String) : List (String × String) :=
  let r1 := find σ x
  let r2 := find r1.1 y
  if r1.2 ≠ r2.2 then aset r2.1 r1.2 r2.2 else r2.1

/-- Python dict insertion with overwrite-in-place semantics, for the
`entities_data` dict. -/
def dictInsert (σ : List (String × List String)) (k : String) (v : List String) :
    List (String × List String) :=
  if (σ.find? (fun p => p.1 = k)).isSome
  then σ.map (fun p => if p.1 = k then (k, v) else p)
  else σ ++ [(k, v)]

/-- `entities_data`: per record, the None-filtered connections, keyed by
entity (later rows overwrite). -/
def buildEntitiesData (rows : List (String × List (Option String))) :
    List (String × List String) :=
  rows.foldl (fun acc row => dictInsert acc row.1 (row.2.filterMap id)) []

/-- Set insertion in first-insertion order. -/
def addNew (l : List String) (x : String) : List String :=
  if x ∈ l then l else l ++ [x]

/-- `all_entities`: every row's entity and all its (non-null) connections. -/
def buildAllEntities (rows : List (String × List (Option String))) : List String :=
  rows.foldl (fun acc row => (row.2.filterMap id).foldl addNew (addNew acc row.1)) []

/-- The union loop: `for entity, connections in entities_data.items():
for connected in connections: union(entity, connected)`. -/
def processUnions (ed : List (String × List String)) : List (String × String) :=
  ed.foldl (fun σ p => p.2.foldl (fun σ2 c => unionUF σ2 p.1 c) σ) []

/-- The flattened list of `union` calls, in execution order. -/
def unionPairs (ed : List (String × List String)) : List (String × String) :=
  ed.flatMap (fun p => p.2.map (fun c => (p.1, c)))

/-- The grouping loop: compute `find(entity)` for every entity in
`all_entities`, threading the (still mutating) parent map. -/
def rootPairs (σ0 : List (String × String)) (es : List String) :
    List (String × String) :=
  (es.foldl
    (fun acc e =>
      let fr := find acc.1 e
      (fr.1, acc.2 ++ [(e, fr.2)]))
    (σ0, ([] : List (String × String)))).2

/-- `communities[root].append(entity)`: group the pairs by root, keys in
order of first appearance, members in iteration order. -/
def groupByRoot (ps : List (String × String)) : List (String × List String) :=
  ps.foldl
    (fun acc p =>
      if (acc.find? (fun q => q.1 = p.2)).isSome
      then acc.map (fun q => if q.1 = p.2 then (q.1, q.2 ++ [p.1]) else q)
      else acc ++ [(p.2, [p.1])])
    []

/-- First-occurrence deduplication — the key set of a dict built by
repeated insertion, in insertion order. -/
def dedupKeys (l : List String) : List String :=
  l.foldl addNew []

/-- Stable insertion of a group into a size-descending list: move past
strictly larger groups only, so earlier groups precede equal-sized later
ones — the stability guarantee of Python `sorted(..., key=len,
reverse=True)`. -/
def insertDesc (g : List String) : List (List String) → List (List String)
  | [] => [g]
  | h :: t => if g.length < h.length then h :: insertDesc g t else g :: h :: t

/-- Python `sorted(communities.values(), key=len, reverse=True)`. -/
def sortBySizeDesc : List (List String) → List (List String)
  | [] => []
  | x :: xs => insertDesc x (sortBySizeDesc xs)

/-- The state of the parent map after all unions. -/
def unionState (rows : List (String × List (Option String))) :
    List (String × String) :=
  processUnions (buildEntitiesData rows)

/-- `community_list`: the communities in descending size order. -/
def communityList (rows : List (String × List (Option String))) :
    List (List String) :=
  sortBySizeDesc
    ((groupByRoot (rootPairs (unionState rows) (buildAllEntities rows))).map
      (fun g => g.2))

/-- Python dict insertion with overwrite-in-place semantics, `Nat` values. -/
def dictInsertNat (σ : List (String × Nat)) (k : String) (v : Nat) :
    List (String × Nat) :=
  if (σ.find? (fun p => p.1 = k)).isSome
  then σ.map (fun p => if p.1 = k then (k, v) else p)
  else σ ++ [(k, v)]

/-- `community_assignment` / `update_data`: the dict built by
`for i, community in enumerate(community_list): for entity in community:
community_assignment[entity] = i`, in insertion order. -/
def communityAssignment (rows : List (String × List (Option String))) :
    List (String × Nat) :=
  (communityList rows).enum.foldl
    (fun acc p => p.2.foldl (fun acc2 e => dictInsertNat acc2 e p.1) acc)
    []

/-- Nat-valued association-list lookup (the stored community id). -/
def alookupNat : List (String × Nat) → String → Option Nat
  | [], _ => none
  | (k, v) :: rest, x => if k = x then some v else alookupNat rest x

/-- The `size → frequency` histogram. -/
def buildDistribution (sizes : List Nat) : List (Nat × Nat) :=
  sizes.foldl
    (fun acc s =>
      if (acc.find? (fun p => p.1 = s)).isSome
      then acc.map (fun p => if p.1 = s then (p.1, p.2 + 1) else p)
      else acc ++ [(s, 1)])
    []

/-- The statistics dict returned by `calculate_communities`. -/
structure CommunityStats where
  communityCount : Nat
  communityDistribution : List (Nat × Nat)
  nodeCount : Nat
  relationshipCount : Nat
  largest_community_size : Nat
  smallest_community_size : Nat
deriving DecidableEq

/-- `calculate_communities`, as a pure function of the query rows: the
assignment written back to the store, and the returned statistics. -/
def calculate_communities (rows : List (String × List (Option String))) :
    List (String × Nat) × CommunityStats :=
  let ed := buildEntitiesData rows
  let sizes := (communityList rows).map List.length
  (communityAssignment rows,
   { communityCount := (communityList rows).length
     communityDistribution := buildDistribution sizes
     nodeCount := (buildAllEntities rows).length
     relationshipCount := (ed.map (fun p => p.2.length)).sum / 2
     largest_community_size := match sizes with | [] => 0 | s :: t => t.foldl max s
     smallest_community_size := match sizes with | [] => 0 | s :: t => t.foldl min s })

/-- Keys of a parent map. -/
def ufKeys (σ : List (String × String)) : List String :=
  σ.map Prod.fst

/-- A root of the parent forest: absent, or mapped to itself. -/
def IsRoot (σ : List (String × String)) (r : String) : Prop :=
  alookup σ r = none ∨ alookup σ r = some r

/-- A finite chase of parent pointers from `x` to a root `r`; `l` lists
the visited non-root nodes. -/
inductive RootPath (σ : List (String × String)) : String → List String → String → Prop
  | root (r : String) : IsRoot σ r → RootPath σ r [] r
  | step (x p : String) (l : List String) (r : String) :
      alookup σ x = some p → p ≠ x → RootPath σ p l r → RootPath σ x (x :: l) r

/-- `r` is the root of `x` in `σ`. -/
def rootOf (σ : List (String × String)) (x r : String) : Prop :=
  ∃ l, RootPath σ x l r

/-- The invariant maintained by the union-find code. -/
structure UFInv (σ : List (String × String)) : Prop where
  nodup : (ufKeys σ).Nodup
  closed : ∀ x p, alookup σ x = some p → p ∈ ufKeys σ
  total : ∀ x ∈ ufKeys σ, ∃ l r, RootPath σ x l r

/-- Same-class relation of the parent forest. -/
def ufEquiv (σ : List (String × String)) (a b : String) : Prop :=
  ∃ r, rootOf σ a r ∧ rootOf σ b r

/-- One union call per pair in the list. -/
def pairRel (ps : List (String × String)) (a b : String) : Prop :=
  (a, b) ∈ ps

/-- An undirected relationship edge of the adjacency input: some row lists
one endpoint among the other's connections. -/
def rowEdge (rows : List (String × List (Option String))) (a b : String) : Prop :=
  ∃ row ∈ rows,
    (row.1 = a ∧ b ∈ row.2.filterMap id) ∨ (row.1 = b ∧ a ∈ row.2.filterMap id)

/-- A concrete store result whose graph has connected components of sizes
5 (A1–A5 chain), 3 (B1–B3), 3 (C1–C3) and 1 (isolated D). -/
def exampleRows5331 : List (String × List (Option String)) :=
  [("A1", [some "A2"]), ("A2", [some "A1", some "A3"]),
   ("A3", [some "A2", some "A4"]), ("A4", [some "A3", some "A5"]),
   ("A5", [some "A4"]),
   ("B1", [some "B2", some "B3"]), ("B2", [some "B1"]), ("B3", [some "B1"]),
   ("D", []),
   ("C1", [some "C2", some "C3"]), ("C2", [some "C1"]), ("C3", [some "C1"])]

/-! ## Foundational lemmas about the string model -/

theorem firstOcc_nil (sep : List Char) (hsep : sep ≠ []) : firstOcc sep [] = none := by
  simp [firstOcc, List.isEmpty_iff, hsep]

theorem firstOcc_cons (sep : List Char) (c : Char) (cs : List Char) :
    firstOcc sep (c :: cs) =
      if List.isPrefixOf sep (c :: cs) then some 0 else (firstOcc sep cs).map (· + 1) := rfl

theorem pySplitAux_congr (sep : List Char) (hsep : sep ≠ []) :
    ∀ (fuel₁ fuel₂ : Nat) (s : List Char), s.length < fuel₁ → s.length < fuel₂ →
      pySplitAux sep fuel₁ s = pySplitAux sep fuel₂ s := by
  intro fuel₁
  induction fuel₁ with
  | zero => intro fuel₂ s h1 h2; omega
  | succ f ih =>
    intro fuel₂ s h1 h2
    cases fuel₂ with
    | zero => omega
    | succ g =>
      simp only [pySplitAux]
      cases hocc : firstOcc sep s with
      | none => rfl
      | some i =>
        have hs : s ≠ [] := by
          intro hnil
          rw [hnil, firstOcc_nil sep hsep] at hocc
          cases hocc
        have hlen : (s.drop (i + sep.length)).length < s.length := by
          have h1' : 0 < s.length := List.length_pos.mpr hs
          have h2' : 0 < sep.length := List.length_pos.mpr hsep
          simp only [List.length_drop]
          omega
        exact congrArg (List.take i s :: ·) (ih g _ (by omega) (by omega))

theorem pySplit_eq (sep s : List Char) (hsep : sep ≠ []) :
    pySplit sep s =
      match firstOcc sep s with
      | none => [s]
      | some i => s.take i :: pySplit sep (s.drop (i + sep.length)) := by
  have hne : sep.isEmpty = false := by simp [List.isEmpty_iff, hsep]
  simp only [pySplit, hne, Bool.false_eq_true, if_false]
  have hstep : pySplitAux sep (s.length + 1) s =
      match firstOcc sep s with
      | none => [s]
      | some i => s.take i :: pySplitAux sep s.length (s.drop (i + sep.length)) := rfl
  rw [hstep]
  cases hocc : firstOcc sep s with
  | none => rfl
  | some i =>
    have hs : s ≠ [] := by
      intro hnil
      rw [hnil, firstOcc_nil sep hsep] at hocc
      cases hocc
    have h1' : 0 < s.length := List.length_pos.mpr hs
    have h2' : 0 < sep.length := List.length_pos.mpr hsep
    have hlen : (s.drop (i + sep.length)).length < s.length := by
      simp only [List.length_drop]
      omega
    exact congrArg (List.take i s :: ·)
      (pySplitAux_congr sep hsep s.length ((s.drop (i + sep.length)).length + 1) _
        (by omega) (by omega))

theorem pySplit_nil (sep : List Char) : pySplit sep [] = [[]] := by
  by_cases h : sep = []
  · simp [pySplit, h]
  · rw [pySplit_eq sep [] h, firstOcc_nil sep h]

theorem containsSub_false_firstOcc (p s : List Char) (h : containsSub p s = false) :
    firstOcc p s = none := by
  cases ho : firstOcc p s with
  | none => rfl
  | some i => simp [containsSub, ho] at h

theorem removeAll_of_not_contains (pat s : List Char) (hpat : pat ≠ [])
    (h : containsSub pat s = false) : removeAll pat s = s := by
  rw [removeAll, pySplit_eq pat s hpat, containsSub_false_firstOcc pat s h]
  simp

theorem containsSub_cons (p : List Char) (c : Char) (cs : List Char) :
    containsSub p (c :: cs) = (List.isPrefixOf p (c :: cs) || containsSub p cs) := by
  simp only [containsSub, firstOcc_cons]
  by_cases hp : List.isPrefixOf p (c :: cs) = true
  · simp [hp]
  · simp only [Bool.not_eq_true] at hp
    simp [hp]

theorem containsSub_infix_iff (p s : List Char) (hp : p ≠ []) :
    containsSub p s = true ↔ p <:+: s := by
  induction s with
  | nil =>
    simp only [containsSub, firstOcc_nil p hp]
    simp [List.infix_nil, hp]
  | cons c cs ih =>
    rw [containsSub_cons]
    simp only [Bool.or_eq_true, List.isPrefixOf_iff_prefix, ih, List.infix_cons_iff]

theorem infix_dropWhile_iff (w : Char → Bool) (c0 : Char) (t : List Char)
    (hc0 : w c0 = false) :
    ∀ s : List Char, (c0 :: t) <:+: s.dropWhile w ↔ (c0 :: t) <:+: s := by
  intro s
  induction s with
  | nil => simp [List.dropWhile]
  | cons c cs ih =>
    by_cases hc : w c = true
    · rw [List.dropWhile_cons_of_pos hc, ih, List.infix_cons_iff]
      constructor
      · intro h; exact Or.inr h
      · rintro (hpre | hinf)
        · exfalso
          rcases hpre with ⟨u, hu⟩
          cases hu
          rw [hc0] at hc
          cases hc
        · exact hinf
    · rw [List.dropWhile_cons_of_neg hc]

theorem getLast_mem_reverse_head (p : List Char) (cl : Char)
    (hl : p.getLast? = some cl) : ∃ t, p.reverse = cl :: t := by
  have : p.reverse.head? = some cl := by
    rw [List.head?_reverse]
    exact hl
  cases hr : p.reverse with
  | nil => rw [hr] at this; cases this
  | cons a b =>
    rw [hr] at this
    simp only [List.head?_cons, Option.some.injEq] at this
    exact ⟨b, by rw [this]⟩

theorem containsSub_pyStrip (p s : List Char) (c0 cl : Char) (t : List Char)
    (hp : p = c0 :: t) (hc0 : isPyWs c0 = false)
    (hl : p.getLast? = some cl) (hcl : isPyWs cl = false) :
    containsSub p (pyStrip s) = containsSub p s := by
  have hpne : p ≠ [] := by rw [hp]; exact List.cons_ne_nil _ _
  obtain ⟨tr, htr⟩ := getLast_mem_reverse_head p cl hl
  have key : containsSub p (pyStrip s) = true ↔ containsSub p s = true := by
    rw [containsSub_infix_iff p _ hpne, containsSub_infix_iff p s hpne]
    unfold pyStrip
    constructor
    · intro h
      have h1 : p.reverse <:+: (s.dropWhile isPyWs).reverse.dropWhile isPyWs := by
        rw [← List.reverse_infix] at h
        simpa using h
      rw [htr, infix_dropWhile_iff isPyWs cl tr hcl] at h1
      rw [← htr] at h1
      rw [List.reverse_infix] at h1
      rw [hp, infix_dropWhile_iff isPyWs c0 t hc0] at h1
      rw [← hp] at h1
      exact h1
    · intro h
      rw [hp, ← infix_dropWhile_iff isPyWs c0 t hc0] at h
      rw [← hp] at h
      rw [← List.reverse_infix] at h
      rw [htr] at h
      rw [← infix_dropWhile_iff isPyWs cl tr hcl] at h
      rw [← htr] at h
      have h1 : p <:+: ((s.dropWhile isPyWs).reverse.dropWhile isPyWs).reverse := by
        rw [← List.reverse_infix]
        simpa using h
      exact h1
  cases hb : containsSub p s with
  | false =>
    cases hb2 : containsSub p (pyStrip s) with
    | false => rfl
    | true => rw [hb2, hb] at key; simp at key
  | true =>
    cases hb2 : containsSub p (pyStrip s) with
    | false => rw [hb2, hb] at key; simp at key
    | true => rfl

theorem recFields_nil (td : List Char) : recFields td [] = [[]] := by
  simp [recFields, pySplit_nil, pyStrip]

theorem classify_bind_entity (td rec0 : List Char) :
    (classifyRecord td rec0).bind
        (fun pr => match pr with | .entity e => some e | .rel _ => none)
      = claimEntityView td rec0 := by
  by_cases hE : rec0.isEmpty = true
  · rw [List.isEmpty_iff.mp hE]
    simp [classifyRecord, claimEntityView, recFields_nil]
  · simp only [classifyRecord, claimEntityView, hE, Bool.false_eq_true, if_false]
    rcases h : recFields td rec0 with _ | ⟨t0, rest⟩
    · simp
    · rcases rest with _ | ⟨t1, _ | ⟨t2, _ | ⟨t3, _ | ⟨t4, _ | ⟨t5, ts⟩⟩⟩⟩⟩ <;>
        by_cases hent : pyLower (pyStripChars tokenStripSet t0) = "entity".toList <;>
        by_cases hrel : pyLower (pyStripChars tokenStripSet t0) = "relationship".toList <;>
        simp_all

theorem classify_bind_rel (td rec0 : List Char) :
    (classifyRecord td rec0).bind
        (fun pr => match pr with | .rel r => some r | .entity _ => none)
      = claimRelView td rec0 := by
  by_cases hE : rec0.isEmpty = true
  · rw [List.isEmpty_iff.mp hE]
    simp [classifyRecord, claimRelView, recFields_nil]
  · simp only [classifyRecord, claimRelView, hE, Bool.false_eq_true, if_false]
    rcases h : recFields td rec0 with _ | ⟨t0, rest⟩
    · simp
    · rcases rest with _ | ⟨t1, _ | ⟨t2, _ | ⟨t3, _ | ⟨t4, _ | ⟨t5, ts⟩⟩⟩⟩⟩ <;>
        by_cases hent : pyLower (pyStripChars tokenStripSet t0) = "entity".toList <;>
        by_cases hrel : pyLower (pyStripChars tokenStripSet t0) = "relationship".toList <;>
        simp_all

theorem parseRecords_claimViews (td : List Char) (raws : List (List Char)) :
    parseRecords td raws =
      (raws.filterMap (claimEntityView td), raws.filterMap (claimRelView td)) := by
  unfold parseRecords
  refine Prod.ext ?_ ?_ <;> simp only [List.filterMap_filterMap]
  · exact List.filterMap_congr (fun r _ => classify_bind_entity td r)
  · exact List.filterMap_congr (fun r _ => classify_bind_rel td r)

/-- C5: for every input string parsed with explicit delimiters, the output
is exactly the per-record classification of the split: records whose first
token (case-insensitive, quote-stripped) is "entity" survive iff they have
exactly 4 fields, "relationship" records iff they have exactly 5, all other
records are dropped; survivors are partitioned into the entity list and the
relationship list in order of appearance, and dropping a malformed record
never affects adjacent records. -/
theorem parse_extraction_output_drops_malformed (output rd td : String) :
    parse_extraction_output output (some rd) (some td) =
      (((pySplit rd.toList (preprocessOutput output.toList)).map pyStrip).filterMap
          (claimEntityView td.toList),
       ((pySplit rd.toList (preprocessOutput output.toList)).map pyStrip).filterMap
          (claimRelView td.toList))
    ∧ ∀ pre mal post, classifyRecord td.toList mal = none →
        parseRecords td.toList (pre ++ mal :: post) = parseRecords td.toList (pre ++ post) := by
  constructor
  · show parseRecords td.toList ((pySplit rd.toList (preprocessOutput output.toList)).map pyStrip) = _
    exact parseRecords_claimViews _ _
  · intro pre mal post h
    unfold parseRecords
    simp only [String.toList] at h
    simp [List.filterMap_append, List.filterMap_cons, h]

/-- Witness for C5 at the spec's own example: the malformed 3-field entity
record is dropped without affecting the well-formed neighbours. -/
theorem parse_extraction_output_drops_malformed_witness :
    parseRecords "|".toList
        (["(\"entity\"|A|T|d)".toList] ++ "(\"entity\"|B|T)".toList :: ["(\"entity\"|C|T|d2)".toList])
      = parseRecords "|".toList
        (["(\"entity\"|A|T|d)".toList] ++ ["(\"entity\"|C|T|d2)".toList]) :=
  (parse_extraction_output_drops_malformed "x" "#" "|").2
    ["(\"entity\"|A|T|d)".toList] "(\"entity\"|B|T)".toList ["(\"entity\"|C|T|d2)".toList]
    (by decide)

/-- C7: a well-formed relationship record (first token "relationship",
exactly 5 fields) is parsed with its fifth field coerced: an integral
float value is stored as an int, a fractional one as a float, and on
coercion failure the raw trimmed string is stored unchanged (the parse is
total — no exception reaches the caller). -/
theorem relationship_strength_coercion (td rec0 t0 t1 t2 t3 t4 : List Char)
    (hf : recFields td rec0 = [t0, t1, t2, t3, t4])
    (ht : pyLower (pyStripChars tokenStripSet t0) = "relationship".toList) :
    classifyRecord td rec0 =
      some (.rel ⟨String.mk t1, String.mk t2, String.mk t3, coerceStrength t4⟩)
    ∧ (∀ v, pyFloat t4 = some v → pyIsInteger v = true →
        coerceStrength t4 = .int (pyIntOf v))
    ∧ (∀ v, pyFloat t4 = some v → pyIsInteger v = false →
        coerceStrength t4 = .float v)
    ∧ (pyFloat t4 = none → coerceStrength t4 = .str (String.mk t4)) := by
  refine ⟨?_, ?_, ?_, ?_⟩
  · have hne : ¬(rec0.isEmpty = true) := by
      intro h
      rw [List.isEmpty_iff.mp h, recFields_nil] at hf
      simp at hf
    have hner : pyLower (pyStripChars tokenStripSet t0) ≠ "entity".toList := by
      rw [ht]; decide
    simp only [classifyRecord, hne, Bool.false_eq_true, if_false, hf, ht, hner]
    simp
  · intro v hv hint
    simp [coerceStrength, hv, hint]
  · intro v hv hint
    simp [coerceStrength, hv, hint]
  · intro h
    simp [coerceStrength, h]

set_option maxRecDepth 100000 in
set_option exponentiation.threshold 2000 in
/-- Witness for C7 on a concrete record with integral strength "7.0",
plus concrete evaluations of the float() model at its corner cases: an
underscored literal, an infinity spelling, a literal whose double
rounds to an integer, a fractional value, and a coercion failure. -/
theorem relationship_strength_coercion_witness :
    (classifyRecord "|".toList "(\"relationship\"|A|B|likes|7.0)".toList =
      some (.rel ⟨"A", "B", "likes", coerceStrength "7.0".toList⟩)
    ∧ coerceStrength "7.0".toList = .int 7)
    ∧ coerceStrength "1_0".toList = .int 10
    ∧ coerceStrength "inf".toList = .float .inf
    ∧ coerceStrength "1.0000000000000000000000001".toList = .int 1
    ∧ coerceStrength "2.5".toList = .float (.finite (Rat.divInt 5 2))
    ∧ coerceStrength "1_x".toList = .str "1_x" :=
  ⟨⟨(relationship_strength_coercion "|".toList "(\"relationship\"|A|B|likes|7.0)".toList
      "\"relationship\"".toList "A".toList "B".toList "likes".toList "7.0".toList
      (by decide) (by decide)).1,
   (relationship_strength_coercion "|".toList "(\"relationship\"|A|B|likes|7.0)".toList
      "\"relationship\"".toList "A".toList "B".toList "likes".toList "7.0".toList
      (by decide) (by decide)).2.1 (.finite 7) (by decide) (by decide)⟩,
   by decide, by decide, by decide, by decide, by decide⟩

/-- C6 counterexample: on this input the literal placeholder
"\x7brecord_delimiter\x7d" does not occur in the input string, yet
`parse_extraction_output` detects it as record delimiter, because removal
of the completion marker glues one together; splitting on the claimed
newline delimiter would instead drop the record. -/
theorem detect_record_delim_counterexample :
    containsSub recordDelimiterTok
        "\x7brecord_del\x7bcompletion_delimiter\x7dimiter\x7dentity;A;T;D".toList = false
    ∧ detectRecordDelim
        (preprocessOutput
          "\x7brecord_del\x7bcompletion_delimiter\x7dimiter\x7dentity;A;T;D".toList)
        = recordDelimiterTok
    ∧ claimDetectRecordDelim
        "\x7brecord_del\x7bcompletion_delimiter\x7dimiter\x7dentity;A;T;D".toList = ['\n']
    ∧ parse_extraction_output
        "\x7brecord_del\x7bcompletion_delimiter\x7dimiter\x7dentity;A;T;D" none none
        = ([⟨"A", "T", "D"⟩], [])
    ∧ parseRecords
        (claimDetectTupleDelim
          "\x7brecord_del\x7bcompletion_delimiter\x7dimiter\x7dentity;A;T;D".toList)
        ((pySplit
            (claimDetectRecordDelim
              "\x7brecord_del\x7bcompletion_delimiter\x7dimiter\x7dentity;A;T;D".toList)
            (preprocessOutput
              "\x7brecord_del\x7bcompletion_delimiter\x7dimiter\x7dentity;A;T;D".toList)).map
          pyStrip)
        = ([], []) := by
  refine ⟨by decide, by decide, by decide, by decide, by decide⟩

/-- C6 amended: `parse_extraction_output` applies the claimed detection
order — placeholder, then literal pipe / semicolon, then newline / tab —
to the input *after* completion-marker removal and stripping; whenever the
input does not contain the completion marker, this coincides with the
claimed detection on the raw input (whitespace stripping never affects
the four occurrence tests). -/
theorem parse_delimiter_detection_amended (s : String) :
    (parse_extraction_output s none none =
      parseRecords (detectTupleDelim (preprocessOutput s.toList))
        ((pySplit (detectRecordDelim (preprocessOutput s.toList))
            (preprocessOutput s.toList)).map pyStrip))
    ∧ (containsSub completionMarkerTok s.toList = false →
        detectRecordDelim (preprocessOutput s.toList) = claimDetectRecordDelim s.toList
        ∧ detectTupleDelim (preprocessOutput s.toList) = claimDetectTupleDelim s.toList) := by
  constructor
  · rfl
  · intro h
    have hpre : preprocessOutput s.toList = pyStrip s.toList := by
      unfold preprocessOutput
      rw [removeAll_of_not_contains completionMarkerTok s.toList (by decide) h]
    have hrec : containsSub recordDelimiterTok (pyStrip s.toList)
        = containsSub recordDelimiterTok s.toList :=
      containsSub_pyStrip _ _ '\x7b' '\x7d' "record_delimiter\x7d".toList
        (by decide) (by decide) (by decide) (by decide)
    have htup : containsSub tupleDelimiterTok (pyStrip s.toList)
        = containsSub tupleDelimiterTok s.toList :=
      containsSub_pyStrip _ _ '\x7b' '\x7d' "tuple_delimiter\x7d".toList
        (by decide) (by decide) (by decide) (by decide)
    have hpipe : containsSub ['|'] (pyStrip s.toList) = containsSub ['|'] s.toList :=
      containsSub_pyStrip _ _ '|' '|' [] (by decide) (by decide) (by decide) (by decide)
    have hsemi : containsSub [';'] (pyStrip s.toList) = containsSub [';'] s.toList :=
      containsSub_pyStrip _ _ ';' ';' [] (by decide) (by decide) (by decide) (by decide)
    rw [hpre]
    constructor
    · unfold detectRecordDelim claimDetectRecordDelim
      rw [hrec, hpipe]
    · unfold detectTupleDelim claimDetectTupleDelim
      rw [htup, hsemi]

/-- Witness for C6 amended at a marker-free input containing a pipe and a
semicolon: the detected delimiters match the claimed cascade on the input. -/
theorem parse_delimiter_detection_amended_witness :
    containsSub completionMarkerTok " a|b;c ".toList = false
    ∧ detectRecordDelim (preprocessOutput " a|b;c ".toList)
        = claimDetectRecordDelim " a|b;c ".toList
    ∧ detectTupleDelim (preprocessOutput " a|b;c ".toList)
        = claimDetectTupleDelim " a|b;c ".toList :=
  ⟨by decide,
   ((parse_delimiter_detection_amended " a|b;c ").2 (by decide)).1,
   ((parse_delimiter_detection_amended " a|b;c ").2 (by decide)).2⟩

theorem unbordered_spec (p : List Char) (h : unborderedB p = true) :
    ∀ k, 0 < k → k < p.length → p.take k ≠ p.drop (p.length - k) := by
  intro k hk0 hklen
  have hall := List.all_eq_true.mp h k (List.mem_range.mpr hklen)
  rcases Bool.or_eq_true_iff.mp hall with h1 | h2
  · exact absurd (of_decide_eq_true h1) (by omega)
  · exact of_decide_eq_true h2

theorem containsSub_of_pref (sep p : List Char) (hsep : sep ≠ []) (h : sep <+: p) :
    containsSub sep p = true :=
  (containsSub_infix_iff sep p hsep).mpr h.isInfix

theorem firstOcc_append_sep (sep p rest : List Char) (hsep : sep ≠ [])
    (hub : unborderedB sep = true) (hp : containsSub sep p = false) :
    firstOcc sep (p ++ (sep ++ rest)) = some p.length := by
  induction p with
  | nil =>
    have hpre : List.isPrefixOf sep (sep ++ rest) = true :=
      List.isPrefixOf_iff_prefix.mpr (List.prefix_append sep rest)
    have hne : sep ++ rest ≠ [] := fun h => hsep (List.append_eq_nil.mp h).1
    simp only [List.nil_append, List.length_nil]
    cases hs : sep ++ rest with
    | nil => exact absurd hs hne
    | cons c cs =>
      rw [hs] at hpre
      rw [firstOcc_cons, if_pos hpre]
  | cons c p' ih =>
    have hp' : containsSub sep p' = false := by
      have hc := containsSub_cons sep c p'
      rw [hp] at hc
      exact (Bool.or_eq_false_iff.mp hc.symm).2
    have hnpre : ¬(List.isPrefixOf sep ((c :: p') ++ (sep ++ rest)) = true) := by
      intro hpre
      have hpre' : sep <+: (c :: p') ++ (sep ++ rest) :=
        List.isPrefixOf_iff_prefix.mp hpre
      by_cases hle : sep.length ≤ (c :: p').length
      · have h1 : sep = ((c :: p') ++ (sep ++ rest)).take sep.length :=
          List.prefix_iff_eq_take.mp hpre'
        rw [List.take_append_of_le_length hle] at h1
        have h2 : sep <+: (c :: p') := h1 ▸ List.take_prefix _ _
        rw [containsSub_of_pref sep (c :: p') hsep h2] at hp
        cases hp
      · push_neg at hle
        have h1 : sep = ((c :: p') ++ (sep ++ rest)).take sep.length :=
          List.prefix_iff_eq_take.mp hpre'
        rw [List.take_append_eq_append_take] at h1
        have hPt : ((c :: p').take sep.length) = c :: p' :=
          List.take_of_length_le (le_of_lt hle)
        rw [hPt] at h1
        have hkle : sep.length - (c :: p').length ≤ sep.length := Nat.sub_le _ _
        rw [List.take_append_of_le_length hkle] at h1
        have hdrop : sep.drop (c :: p').length = sep.take (sep.length - (c :: p').length) := by
          conv_lhs => rw [h1]
          rw [List.drop_left]
        have hcontr := unbordered_spec sep hub (sep.length - (c :: p').length)
          (by simp only [List.length_cons] at hle ⊢; omega)
          (by simp only [List.length_cons] at hle ⊢; omega)
        apply hcontr
        rw [show sep.length - (sep.length - (c :: p').length) = (c :: p').length by
          simp only [List.length_cons] at hle ⊢; omega]
        exact hdrop.symm
    rw [List.cons_append, firstOcc_cons, if_neg (by rw [← List.cons_append]; exact hnpre)]
    rw [ih hp']
    simp

theorem intercalate_single (sep x : List Char) : List.intercalate sep [x] = x := by
  simp [List.intercalate]

theorem intercalate_cons₂ (sep x y : List Char) (zs : List (List Char)) :
    List.intercalate sep (x :: y :: zs) = x ++ sep ++ List.intercalate sep (y :: zs) := by
  simp [List.intercalate, List.append_assoc]

theorem pySplit_intercalate (sep : List Char) (hsep : sep ≠ [])
    (hub : unborderedB sep = true) :
    ∀ parts : List (List Char), parts ≠ [] →
      (∀ part ∈ parts, containsSub sep part = false) →
      pySplit sep (List.intercalate sep parts) = parts := by
  intro parts
  induction parts with
  | nil => intro h; exact absurd rfl h
  | cons p ps ih =>
    intro _ hfree
    cases ps with
    | nil =>
      rw [intercalate_single, pySplit_eq sep p hsep,
        containsSub_false_firstOcc _ _ (hfree p (by simp))]
    | cons q qs =>
      rw [intercalate_cons₂, List.append_assoc, pySplit_eq sep _ hsep,
        firstOcc_append_sep sep p _ hsep hub (hfree p (by simp))]
      simp only
      rw [List.take_left]
      rw [show p.length + sep.length = (p ++ sep).length by simp]
      rw [← List.append_assoc, List.drop_left]
      rw [ih (by simp) (fun part hm => hfree part (by simp [hm]))]

theorem pyStrip_eq_self_of (l : List Char)
    (h1 : ∀ c, l.head? = some c → isPyWs c = false)
    (h2 : ∀ c, l.getLast? = some c → isPyWs c = false) :
    pyStrip l = l := by
  cases l with
  | nil => rfl
  | cons c t =>
    unfold pyStrip
    rw [List.dropWhile_cons_of_neg (by simp [h1 c rfl])]
    cases hr : (c :: t).reverse with
    | nil => simp at hr
    | cons a b =>
      have ha : (c :: t).getLast? = some a := by
        rw [← List.head?_reverse, hr]
        rfl
      have hb : List.dropWhile isPyWs (a :: b) = a :: b :=
        List.dropWhile_cons_of_neg (by simp [h2 a ha])
      rw [hb, ← hr, List.reverse_reverse]

theorem head_not_ws_of_strip_fixed (l : List Char) (h : pyStrip l = l) (c : Char)
    (hc : l.head? = some c) : isPyWs c = false := by
  cases l with
  | nil => cases hc
  | cons a t =>
    have hac : a = c := by
      simp only [List.head?_cons, Option.some.injEq] at hc
      exact hc
    subst hac
    by_contra hws
    rw [Bool.not_eq_false] at hws
    have hlen : (pyStrip (a :: t)).length ≤ t.length := by
      unfold pyStrip
      rw [List.dropWhile_cons_of_pos hws]
      calc ((t.dropWhile isPyWs).reverse.dropWhile isPyWs).reverse.length
          = ((t.dropWhile isPyWs).reverse.dropWhile isPyWs).length := by
            rw [List.length_reverse]
        _ ≤ (t.dropWhile isPyWs).reverse.length :=
            (List.dropWhile_suffix isPyWs).length_le
        _ = (t.dropWhile isPyWs).length := by rw [List.length_reverse]
        _ ≤ t.length := (List.dropWhile_suffix isPyWs).length_le
    rw [h] at hlen
    simp at hlen

theorem last_not_ws_of_strip_fixed (l : List Char) (h : pyStrip l = l) (c : Char)
    (hc : l.getLast? = some c) : isPyWs c = false := by
  by_contra hws
  rw [Bool.not_eq_false] at hws
  have hne : l ≠ [] := by
    intro h0
    rw [h0] at hc
    cases hc
  cases hd : l.dropWhile isPyWs with
  | nil =>
    have hnil : pyStrip l = [] := by
      unfold pyStrip
      rw [hd]
      rfl
    rw [h] at hnil
    exact hne hnil
  | cons a b =>
    have hsuf : (a :: b) <:+ l := hd ▸ List.dropWhile_suffix isPyWs
    obtain ⟨u, hu⟩ := hsuf
    have hlast : (a :: b).getLast? = some c := by
      have hl2 : l.getLast? = (a :: b).getLast? := by
        rw [← hu, List.getLast?_append]
        cases hg : (a :: b).getLast? with
        | none => simp [List.getLast?_eq_none_iff] at hg
        | some x => simp
      rw [← hl2, hc]
    obtain ⟨t2, ht2⟩ := getLast_mem_reverse_head (a :: b) c hlast
    have hstrip : pyStrip l = (List.dropWhile isPyWs (c :: t2)).reverse := by
      unfold pyStrip
      rw [hd, ht2]
    rw [List.dropWhile_cons_of_pos hws] at hstrip
    have h1 : l.length ≤ t2.length := by
      conv_lhs => rw [← h, hstrip]
      calc (t2.dropWhile isPyWs).reverse.length
          = (t2.dropWhile isPyWs).length := by rw [List.length_reverse]
        _ ≤ t2.length := (List.dropWhile_suffix isPyWs).length_le
    have h2 : t2.length + 1 = b.length + 1 := by
      have := congrArg List.length ht2
      simpa using this.symm
    have h3 : (a :: b).length ≤ l.length := by
      rw [← hu]
      simp
    simp only [List.length_cons] at h3
    omega

theorem getLast?_append_right (u v : List Char) (hv : v ≠ []) :
    (u ++ v).getLast? = v.getLast? := by
  rw [List.getLast?_append]
  cases hg : v.getLast? with
  | none => exact absurd (List.getLast?_eq_none_iff.mp hg) hv
  | some x => rfl

theorem serializeRaw_ent_eq (td n t d : List Char) :
    serializeRaw td (.ent n t d) =
      '(' :: List.intercalate td ["\"entity\"".toList, n, t, d] ++ [')'] := by
  simp [serializeRaw, intercalate_cons₂, intercalate_single, List.append_assoc]

theorem serializeRaw_rel_eq (td s t d w : List Char) :
    serializeRaw td (.rel s t d w) =
      '(' :: List.intercalate td ["\"relationship\"".toList, s, t, d, w] ++ [')'] := by
  simp [serializeRaw, intercalate_cons₂, intercalate_single, List.append_assoc]

theorem recFields_wrapped (td kw : List Char) (fields : List (List Char))
    (htd : td ≠ []) (hub : unborderedB td = true)
    (hkw : containsSub td kw = false) (hkwstrip : pyStrip kw = kw)
    (hkwne : kw ≠ [])
    (hkwhead : ∀ c, kw.head? = some c → isPyWs c = false)
    (hfs : ∀ f ∈ fields, goodField td f)
    (hlastf : ∀ c, (List.intercalate td (kw :: fields)).getLast? = some c → isPyWs c = false) :
    recFields td ('(' :: List.intercalate td (kw :: fields) ++ [')'])
      = kw :: fields := by
  have hhead : ('(' :: List.intercalate td (kw :: fields) ++ [')']).head? = some '(' := rfl
  have hlast : ('(' :: List.intercalate td (kw :: fields) ++ [')']).getLast? = some ')' := by
    rw [show '(' :: List.intercalate td (kw :: fields) ++ [')'] =
      ('(' :: List.intercalate td (kw :: fields)) ++ [')'] from by simp]
    exact List.getLast?_concat _
  unfold recFields
  rw [if_pos ⟨hhead, hlast⟩]
  have hpeel : (('(' :: List.intercalate td (kw :: fields) ++ [')']).drop 1).dropLast
      = List.intercalate td (kw :: fields) := by
    simp
  rw [hpeel]
  have hstripinner : pyStrip (List.intercalate td (kw :: fields))
      = List.intercalate td (kw :: fields) := by
    apply pyStrip_eq_self_of
    · intro c hc
      cases fields with
      | nil =>
        rw [intercalate_single] at hc
        exact hkwhead c hc
      | cons g gs =>
        rw [intercalate_cons₂] at hc
        cases hkwc : kw with
        | nil => exact absurd hkwc hkwne
        | cons k0 ks =>
          apply hkwhead c
          rw [hkwc] at hc ⊢
          simp only [List.cons_append, List.head?_cons] at hc ⊢
          exact hc
    · exact hlastf
  show List.map pyStrip (pySplit td (pyStrip (List.intercalate td (kw :: fields))))
      = kw :: fields
  rw [hstripinner]
  rw [pySplit_intercalate td htd hub (kw :: fields) (by simp)
    (by
      intro part hm
      rcases List.mem_cons.mp hm with h | h
      · rw [h]; exact hkw
      · exact (hfs part h).2.2)]
  simp only [List.map_cons, hkwstrip]
  congr 1
  have : List.map pyStrip fields = List.map id fields :=
    List.map_congr_left (fun f hf => (hfs f hf).1)
  rw [this, List.map_id]

theorem classify_serialize_ent (td n t d : List Char) (htd : td ≠ [])
    (hub : unborderedB td = true)
    (hkw : containsSub td "\"entity\"".toList = false)
    (hn : goodField td n) (ht : goodField td t) (hd : goodField td d) :
    classifyRecord td (serializeRaw td (.ent n t d)) =
      some (rawParsedView (.ent n t d)) := by
  obtain ⟨hn1, hn2, hn3⟩ := hn
  obtain ⟨ht1, ht2, ht3⟩ := ht
  obtain ⟨hd1, hd2, hd3⟩ := hd
  have hBne : ∀ (u v : List Char), u ≠ [] → u ++ v ≠ [] :=
    fun u v hu h => hu (List.append_eq_nil.mp h).1
  have hlastinner : ∀ c,
      (List.intercalate td ["\"entity\"".toList, n, t, d]).getLast? = some c →
        isPyWs c = false := by
    intro c hc
    rw [intercalate_cons₂, intercalate_cons₂, intercalate_cons₂,
      intercalate_single] at hc
    rw [getLast?_append_right _ _ (hBne (n ++ td) _ (hBne n td hn2)),
      getLast?_append_right _ _ (hBne (t ++ td) d (hBne t td ht2)),
      getLast?_append_right _ _ hd2] at hc
    exact last_not_ws_of_strip_fixed d hd1 c hc
  have hfields := recFields_wrapped td "\"entity\"".toList [n, t, d] htd hub hkw
    (by decide) (by decide)
    (by intro c hc; simp only [List.head?] at hc; cases hc; decide)
    (by
      intro f hf
      simp only [List.mem_cons, List.not_mem_nil, or_false] at hf
      rcases hf with rfl | rfl | rfl
      exacts [⟨hn1, hn2, hn3⟩, ⟨ht1, ht2, ht3⟩, ⟨hd1, hd2, hd3⟩])
    hlastinner
  rw [serializeRaw_ent_eq td n t d]
  unfold classifyRecord
  rw [if_neg (by simp)]
  simp only [hfields]
  rw [if_pos (by decide : pyLower (pyStripChars tokenStripSet "\"entity\"".toList)
    = "entity".toList)]
  rfl

theorem classify_serialize_rel (td s t d w : List Char) (htd : td ≠ [])
    (hub : unborderedB td = true)
    (hkw : containsSub td "\"relationship\"".toList = false)
    (hs : goodField td s) (ht : goodField td t) (hd : goodField td d)
    (hw : goodField td w) :
    classifyRecord td (serializeRaw td (.rel s t d w)) =
      some (rawParsedView (.rel s t d w)) := by
  obtain ⟨hs1, hs2, hs3⟩ := hs
  obtain ⟨ht1, ht2, ht3⟩ := ht
  obtain ⟨hd1, hd2, hd3⟩ := hd
  obtain ⟨hw1, hw2, hw3⟩ := hw
  have hBne : ∀ (u v : List Char), u ≠ [] → u ++ v ≠ [] :=
    fun u v hu h => hu (List.append_eq_nil.mp h).1
  have hlastinner : ∀ c,
      (List.intercalate td ["\"relationship\"".toList, s, t, d, w]).getLast? = some c →
        isPyWs c = false := by
    intro c hc
    rw [intercalate_cons₂, intercalate_cons₂, intercalate_cons₂, intercalate_cons₂,
      intercalate_single] at hc
    rw [getLast?_append_right _ _ (hBne (s ++ td) _ (hBne s td hs2)),
      getLast?_append_right _ _ (hBne (t ++ td) _ (hBne t td ht2)),
      getLast?_append_right _ _ (hBne (d ++ td) w (hBne d td hd2)),
      getLast?_append_right _ _ hw2] at hc
    exact last_not_ws_of_strip_fixed w hw1 c hc
  have hfields := recFields_wrapped td "\"relationship\"".toList [s, t, d, w] htd hub hkw
    (by decide) (by decide)
    (by intro c hc; simp only [List.head?] at hc; cases hc; decide)
    (by
      intro f hf
      simp only [List.mem_cons, List.not_mem_nil, or_false] at hf
      rcases hf with rfl | rfl | rfl | rfl
      exacts [⟨hs1, hs2, hs3⟩, ⟨ht1, ht2, ht3⟩, ⟨hd1, hd2, hd3⟩, ⟨hw1, hw2, hw3⟩])
    hlastinner
  rw [serializeRaw_rel_eq td s t d w]
  unfold classifyRecord
  rw [if_neg (by simp)]
  simp only [hfields]
  rw [if_neg (by decide : ¬(pyLower (pyStripChars tokenStripSet "\"relationship\"".toList)
    = "entity".toList))]
  rw [if_pos (by decide : pyLower (pyStripChars tokenStripSet "\"relationship\"".toList)
    = "relationship".toList)]
  rfl

theorem serializeRaw_cons_shape (td : List Char) (r : RawRec) :
    ∃ Y, serializeRaw td r = '(' :: Y ++ [')'] := by
  cases r with
  | ent n t d => exact ⟨_, rfl⟩
  | rel s t d w => exact ⟨_, rfl⟩

theorem pyStrip_serializeRaw (td : List Char) (r : RawRec) :
    pyStrip (serializeRaw td r) = serializeRaw td r := by
  obtain ⟨Y, hY⟩ := serializeRaw_cons_shape td r
  rw [hY]
  apply pyStrip_eq_self_of
  · intro c hc
    simp only [List.cons_append, List.head?_cons, Option.some.injEq] at hc
    rw [← hc]
    decide
  · intro c hc
    rw [show ('(' :: Y ++ [')'] : List Char) = ('(' :: Y) ++ [')'] from by simp,
      List.getLast?_concat] at hc
    simp only [Option.some.injEq] at hc
    rw [← hc]
    decide

theorem serializeOutput_ends (rd td : List Char) (records : List RawRec)
    (hne : records ≠ []) :
    ∃ l, serializeOutput rd td records = l ++ [')'] := by
  induction records with
  | nil => exact absurd rfl hne
  | cons r rs ih =>
    cases rs with
    | nil =>
      obtain ⟨Y, hY⟩ := serializeRaw_cons_shape td r
      refine ⟨'(' :: Y, ?_⟩
      rw [serializeOutput, List.map_cons, List.map_nil, intercalate_single, hY]
    | cons q qs =>
      obtain ⟨l, hl⟩ := ih (by simp)
      refine ⟨serializeRaw td r ++ rd ++ l, ?_⟩
      rw [serializeOutput, List.map_cons, List.map_cons, intercalate_cons₂]
      rw [serializeOutput, List.map_cons] at hl
      rw [hl]
      simp [List.append_assoc]

theorem serializeOutput_head (rd td : List Char) (r : RawRec) (rs : List RawRec) :
    (serializeOutput rd td (r :: rs)).head? = some '(' := by
  obtain ⟨Y, hY⟩ := serializeRaw_cons_shape td r
  cases rs with
  | nil =>
    rw [serializeOutput, List.map_cons, List.map_nil, intercalate_single, hY]
    rfl
  | cons q qs =>
    rw [serializeOutput, List.map_cons, List.map_cons, intercalate_cons₂, hY]
    rfl

/-- C4 amended: the parser round-trips a serialized output provided the
delimiters are nonempty and unbordered, fields are trimmed, nonempty and
delimiter-free, the tuple delimiter does not occur in the two keywords, the
record delimiter does not occur in any serialized record, and the completion
marker does not occur in the output; the parser then recovers exactly the
records in order, with relationship strengths numerically coerced. -/
theorem parse_serialized_roundtrip (rd td : List Char) (records : List RawRec)
    (hrd : rd ≠ []) (htd : td ≠ [])
    (hubr : unborderedB rd = true) (hubt : unborderedB td = true)
    (hkwE : containsSub td "\"entity\"".toList = false)
    (hkwR : containsSub td "\"relationship\"".toList = false)
    (hfields : ∀ r ∈ records, goodRec td r)
    (hrecfree : ∀ r ∈ records, containsSub rd (serializeRaw td r) = false)
    (hmarker : containsSub completionMarkerTok (serializeOutput rd td records) = false) :
    parse_extraction_output (String.mk (serializeOutput rd td records))
        (some (String.mk rd)) (some (String.mk td)) =
      (records.filterMap rawEntView, records.filterMap rawRelView) := by
  have hredex : parse_extraction_output (String.mk (serializeOutput rd td records))
      (some (String.mk rd)) (some (String.mk td))
      = parseRecords td
          ((pySplit rd (preprocessOutput (serializeOutput rd td records))).map pyStrip) := rfl
  rw [hredex]
  cases records with
  | nil =>
    have h0 : serializeOutput rd td ([] : List RawRec) = [] := rfl
    rw [h0]
    have h1 : preprocessOutput [] = [] := by
      unfold preprocessOutput removeAll
      rw [pySplit_nil]
      rfl
    rw [h1, pySplit_nil]
    rfl
  | cons r0 rs =>
    have hin : preprocessOutput (serializeOutput rd td (r0 :: rs))
        = serializeOutput rd td (r0 :: rs) := by
      unfold preprocessOutput
      rw [removeAll_of_not_contains _ _ (by decide) hmarker]
      apply pyStrip_eq_self_of
      · intro c hc
        rw [serializeOutput_head rd td r0 rs] at hc
        simp only [Option.some.injEq] at hc
        rw [← hc]
        decide
      · intro c hc
        obtain ⟨l, hl⟩ := serializeOutput_ends rd td (r0 :: rs) (by simp)
        rw [hl, List.getLast?_concat] at hc
        simp only [Option.some.injEq] at hc
        rw [← hc]
        decide
    rw [hin]
    have hsplit : pySplit rd (serializeOutput rd td (r0 :: rs))
        = (r0 :: rs).map (serializeRaw td) := by
      unfold serializeOutput
      exact pySplit_intercalate rd hrd hubr _ (by simp) (by
        intro part hm
        obtain ⟨r, hr, rfl⟩ := List.mem_map.mp hm
        exact hrecfree r hr)
    rw [hsplit]
    have hmapstrip : ((r0 :: rs).map (serializeRaw td)).map pyStrip
        = (r0 :: rs).map (serializeRaw td) := by
      rw [List.map_map]
      have : ∀ r ∈ r0 :: rs, (pyStrip ∘ serializeRaw td) r = serializeRaw td r :=
        fun r _ => pyStrip_serializeRaw td r
      rw [List.map_congr_left this]
    rw [hmapstrip]
    have hclass : ∀ r ∈ r0 :: rs,
        classifyRecord td (serializeRaw td r) = some (rawParsedView r) := by
      intro r hr
      cases r with
      | ent n t d =>
        obtain ⟨h1, h2, h3⟩ := hfields _ hr
        exact classify_serialize_ent td n t d htd hubt hkwE h1 h2 h3
      | rel s t d w =>
        obtain ⟨h1, h2, h3, h4⟩ := hfields _ hr
        exact classify_serialize_rel td s t d w htd hubt hkwR h1 h2 h3 h4
    unfold parseRecords
    dsimp only
    rw [List.filterMap_map, List.filterMap_filterMap, List.filterMap_filterMap]
    refine Prod.ext ?_ ?_
    · apply List.filterMap_congr
      intro r hr
      simp only [Function.comp]
      rw [hclass r hr]
      cases r <;> rfl
    · apply List.filterMap_congr
      intro r hr
      simp only [Function.comp]
      rw [hclass r hr]
      cases r <;> rfl

/-- C4 counterexample: with tuple delimiter "aa" (self-overlapping) and a
field ending in "a", all fields are trimmed, nonempty and contain neither
delimiter, yet parsing the serialized record does not recover it: the name
"ba" comes back as "b" and the type "T" as "aT", because the delimiter
matches across a field boundary. -/
theorem parse_roundtrip_counterexample :
    (∀ f ∈ ["ba".toList, "T".toList, "D".toList],
      pyStrip f = f ∧ f ≠ [] ∧
      containsSub "aa".toList f = false ∧ containsSub "#".toList f = false)
    ∧ parse_extraction_output
        (String.mk (serializeOutput "#".toList "aa".toList
          [.ent "ba".toList "T".toList "D".toList]))
        (some "#") (some "aa")
        = ([⟨"b", "aT", "D"⟩], [])
    ∧ (⟨"b", "aT", "D"⟩ : EntityRec) ≠ ⟨"ba", "T", "D"⟩ := by
  refine ⟨by decide, by decide, by decide⟩

set_option maxRecDepth 100000 in
set_option exponentiation.threshold 2000 in
/-- Witness for the amended C4 round-trip on a concrete two-record output
with newline record delimiter and semicolon tuple delimiter. -/
theorem parse_serialized_roundtrip_witness :
    parse_extraction_output (String.mk (serializeOutput "\n".toList ";".toList
        [.ent "A".toList "T".toList "d".toList,
         .rel "A".toList "B".toList "likes".toList "7.0".toList]))
        (some (String.mk "\n".toList)) (some (String.mk ";".toList)) =
      ([⟨"A", "T", "d"⟩], [⟨"A", "B", "likes", Strength.int 7⟩]) := by
  have h := parse_serialized_roundtrip "\n".toList ";".toList
    [.ent "A".toList "T".toList "d".toList,
     .rel "A".toList "B".toList "likes".toList "7.0".toList]
    (by decide) (by decide) (by decide) (by decide) (by decide) (by decide)
    (by decide) (by decide) (by decide)
  rw [h]
  decide

/-- C9: `extract_json` never raises and tries its stages in order — direct
parse after stripping a ```json fence, regex extraction of a fenced block,
first balanced brace span, first balanced bracket span — and returns the
fixed fallback report when every stage fails; in particular the fenced
example extracts its object, and an input with no JSON markers yields the
fallback. -/
theorem extract_json_cascade (s : String) :
    extract_json "```json\n\x7b\"title\":\"X\",\"rating\":3\x7d\n```"
      = Json.obj [("title", .str "X"), ("rating", .int 3)]
    ∧ extract_json "hello world" = fallbackReport
    ∧ (∀ v, extractStage1 s.toList = some v → extract_json s = v)
    ∧ (∀ v, extractStage1 s.toList = none → extractStage2 s.toList = some v →
        extract_json s = v)
    ∧ (∀ v, extractStage1 s.toList = none → extractStage2 s.toList = none →
        extractBalanced '\x7b' '\x7d' s.toList = some v → extract_json s = v)
    ∧ (∀ v, extractStage1 s.toList = none → extractStage2 s.toList = none →
        extractBalanced '\x7b' '\x7d' s.toList = none →
        extractBalanced '[' ']' s.toList = some v → extract_json s = v)
    ∧ (extractStage1 s.toList = none → extractStage2 s.toList = none →
        extractBalanced '\x7b' '\x7d' s.toList = none →
        extractBalanced '[' ']' s.toList = none →
        extract_json s = fallbackReport) := by
  refine ⟨rfl, rfl, ?_, ?_, ?_, ?_, ?_⟩
  · intro v h1
    unfold extract_json
    dsimp only
    rw [h1]
  · intro v h1 h2
    unfold extract_json
    dsimp only
    rw [h1, h2]
  · intro v h1 h2 h3
    unfold extract_json
    dsimp only
    rw [h1, h2, h3]
  · intro v h1 h2 h3 h4
    unfold extract_json
    dsimp only
    rw [h1, h2, h3, h4]
  · intro h1 h2 h3 h4
    unfold extract_json
    dsimp only
    rw [h1, h2, h3, h4]

/-- Witness for C9 at a bracket-stage input. -/
theorem extract_json_cascade_witness :
    extract_json "xx [3] yy" = Json.arr [Json.int 3] :=
  (extract_json_cascade "xx [3] yy").2.2.2.2.2.1 (Json.arr [Json.int 3])
    rfl rfl rfl rfl

/-- C1: the code path `json.loads(extract_json(response))` applies
`json.loads` to an already-parsed value, so on a successful language-model
invocation with an unparsable response the fallback report computed by
`extract_json` is discarded by the `TypeError` and the function returns
`{}` — the same value as the invocation-error path — and even a parsable
response collapses to `{}`. -/
theorem generate_report_conflates_failure_modes :
    extract_json "no json here" = fallbackReport
    ∧ generate_community_report_with_llm (.ok "no json here") = Json.obj []
    ∧ extract_json "\x7b\"title\":\"X\"\x7d" = Json.obj [("title", .str "X")]
    ∧ generate_community_report_with_llm (.ok "\x7b\"title\":\"X\"\x7d") = Json.obj []
    ∧ generate_community_report_with_llm (.error ()) = Json.obj []
    ∧ Json.obj [] ≠ fallbackReport := by
  refine ⟨rfl, rfl, rfl, rfl, rfl, ?_⟩
  intro h
  injection h with h1
  exact List.noConfusion h1

theorem chunkTextAux_some (text : List Char) (cs ov : Nat) (b : Bool) (hcs : 1 ≤ cs) :
    ∀ fuel index acc, text.length - index < fuel →
      (chunkTextAux text cs ov b fuel index acc).isSome = true := by
  intro fuel
  induction fuel with
  | zero => intro index acc h; omega
  | succ f ih =>
    intro index acc h
    simp only [chunkTextAux]
    by_cases hidx : index < text.length
    · rw [if_pos hidx]
      cases b with
      | true =>
        rw [if_pos rfl]
        cases hpf : pyFind ' ' text (index + cs) with
        | none =>
          rw [show (match (none : Option Nat) with
            | some j => j
            | none => text.length) = text.length from rfl]
          apply ih
          omega
        | some j =>
          rw [show (match (some j : Option Nat) with
            | some j => j
            | none => text.length) = j from rfl]
          have hj : index + cs ≤ j := by
            unfold pyFind at hpf
            cases ho : firstOcc [' '] (text.drop (index + cs)) with
            | none => rw [ho] at hpf; cases hpf
            | some j2 =>
              rw [ho] at hpf
              simp at hpf
              omega
          apply ih
          omega
      | false =>
        rw [if_neg (by decide : ¬(false = true))]
        apply ih
        omega
    · rw [if_neg hidx]
      rfl

/-- C10: `chunk_text` terminates for every text, `chunk_size ≥ 1` and
`overlap ≥ 0`: in both branches the loop index strictly increases, so
`length + 1` iterations always produce a finite chunk list. -/
theorem chunk_text_terminates (text : String) (chunk_size overlap : Nat) (b : Bool)
    (hcs : 1 ≤ chunk_size) :
    (chunk_text text chunk_size overlap b).isSome = true := by
  unfold chunk_text
  cases hX : chunkTextAux text.toList chunk_size overlap b (text.toList.length + 1) 0 [] with
  | none =>
    have h2 := chunkTextAux_some text.toList chunk_size overlap b hcs
      (text.toList.length + 1) 0 [] (by omega)
    rw [hX] at h2
    cases h2
  | some l => rfl

/-- Witness for C10 on a concrete text. -/
theorem chunk_text_terminates_witness :
    (chunk_text "hello world" 3 1 true).isSome = true :=
  chunk_text_terminates "hello world" 3 1 true (by decide)

/-! ## Union-find: association-list basics -/

theorem alookup_isSome_mem {σ : List (String × String)} {x p : String}
    (h : alookup σ x = some p) : x ∈ ufKeys σ := by
  induction σ with
  | nil => simp [alookup] at h
  | cons hd tl ih =>
    obtain ⟨k, v⟩ := hd
    by_cases hk : k = x
    · simp [ufKeys, hk]
    · simp only [alookup, if_neg hk] at h
      exact List.mem_cons_of_mem _ (ih h)

theorem mem_alookup_isSome {σ : List (String × String)} {x : String}
    (h : x ∈ ufKeys σ) : ∃ p, alookup σ x = some p := by
  induction σ with
  | nil => simp [ufKeys] at h
  | cons hd tl ih =>
    obtain ⟨k, v⟩ := hd
    by_cases hk : k = x
    · exact ⟨v, by simp [alookup, hk]⟩
    · simp only [ufKeys, List.map_cons, List.mem_cons] at h
      rcases h with h | h
      · exact absurd h.symm hk
      · obtain ⟨p, hp⟩ := ih h
        exact ⟨p, by simp [alookup, if_neg hk, hp]⟩

theorem alookup_eq_none_of_not_mem {σ : List (String × String)} {x : String}
    (h : x ∉ ufKeys σ) : alookup σ x = none := by
  cases he : alookup σ x with
  | none => rfl
  | some p => exact absurd (alookup_isSome_mem he) h

theorem ufKeys_aset (σ : List (String × String)) (x r : String) :
    ufKeys (aset σ x r) = ufKeys σ := by
  induction σ with
  | nil => rfl
  | cons hd tl ih =>
    obtain ⟨k, v⟩ := hd
    by_cases hk : k = x
    · simp [aset, hk, ufKeys]
    · simp only [ufKeys, List.map_cons] at ih ⊢
      simp [aset, if_neg hk, ih]

theorem length_aset (σ : List (String × String)) (x r : String) :
    (aset σ x r).length = σ.length := by
  induction σ with
  | nil => rfl
  | cons hd tl ih =>
    obtain ⟨k, v⟩ := hd
    by_cases hk : k = x
    · simp [aset, hk]
    · simp [aset, if_neg hk, ih]

theorem alookup_aset_self {σ : List (String × String)} {x : String} (r : String)
    (h : x ∈ ufKeys σ) : alookup (aset σ x r) x = some r := by
  induction σ with
  | nil => simp [ufKeys] at h
  | cons hd tl ih =>
    obtain ⟨k, v⟩ := hd
    by_cases hk : k = x
    · simp [aset, hk, alookup]
    · simp only [ufKeys, List.map_cons, List.mem_cons] at h
      rcases h with h | h
      · exact absurd h.symm hk
      · simp [aset, if_neg hk, alookup, ih h]

theorem alookup_aset_ne {σ : List (String × String)} {x y : String} (r : String)
    (h : y ≠ x) : alookup (aset σ x r) y = alookup σ y := by
  induction σ with
  | nil => rfl
  | cons hd tl ih =>
    obtain ⟨k, v⟩ := hd
    by_cases hk : k = x
    · subst hk
      simp [aset, alookup, if_neg (fun hh : k = y => h (hh.symm))]
    · by_cases hky : k = y
      · subst hky
        simp [aset, if_neg hk, alookup]
      · simp [aset, if_neg hk, alookup, if_neg hky, ih]

theorem alookup_append (σ τ : List (String × String)) (y : String) :
    alookup (σ ++ τ) y =
      match alookup σ y with
      | some v => some v
      | none => alookup τ y := by
  induction σ with
  | nil => simp [alookup]
  | cons hd tl ih =>
    obtain ⟨k, v⟩ := hd
    by_cases hk : k = y
    · simp [alookup, hk]
    · simp [alookup, if_neg hk, ih]

theorem ufKeys_append (σ τ : List (String × String)) :
    ufKeys (σ ++ τ) = ufKeys σ ++ ufKeys τ := by
  simp [ufKeys]

/-! ## Union-find: root-path theory -/

theorem rootPath_unique {σ : List (String × String)} {x : String}
    {l l' : List String} {r r' : String}
    (h : RootPath σ x l r) (h' : RootPath σ x l' r') : l = l' ∧ r = r' := by
  induction h generalizing l' r' with
  | root s hs =>
    cases h' with
    | root => exact ⟨rfl, rfl⟩
    | step a p l2 r2 hl hne _ =>
      rcases hs with hs | hs
      · rw [hl] at hs; exact absurd hs (by simp)
      · rw [hl] at hs
        exact absurd (Option.some_injective _ hs) hne
  | step a p l2 r2 hl hne hp ih =>
    cases h' with
    | root s hs =>
      rcases hs with hs | hs
      · rw [hl] at hs; exact absurd hs (by simp)
      · rw [hl] at hs
        exact absurd (Option.some_injective _ hs) hne
    | step a2 p2 l3 r3 hl2 hne2 hp2 =>
      rw [hl] at hl2
      have hpp : p = p2 := Option.some_injective _ hl2
      subst hpp
      obtain ⟨he1, he2⟩ := ih hp2
      exact ⟨by rw [he1], he2⟩

theorem rootPath_sub {σ : List (String × String)} {x : String}
    {l1 : List String} {y : String} {l2 : List String} {r : String}
    (h : RootPath σ x (l1 ++ y :: l2) r) : RootPath σ y (y :: l2) r := by
  induction l1 generalizing x with
  | nil =>
    simp only [List.nil_append] at h
    cases h with
    | step _ p _ _ hl hne hp => exact RootPath.step y p l2 r hl hne hp
  | cons z l1' ih =>
    cases h with
    | step _ p _ _ hl hne hp => exact ih hp

theorem rootPath_isRoot {σ : List (String × String)} {x : String}
    {l : List String} {r : String} (h : RootPath σ x l r) : IsRoot σ r := by
  induction h with
  | root s hs => exact hs
  | step _ _ _ _ _ _ _ ih => exact ih

theorem rootPath_not_isRoot_of_mem {σ : List (String × String)} {x : String}
    {l : List String} {r : String} (h : RootPath σ x l r) :
    ∀ z ∈ l, ¬IsRoot σ z := by
  induction h with
  | root => simp
  | step a p l2 r2 hl hne hp ih =>
    intro z hz
    rcases List.mem_cons.mp hz with hz | hz
    · subst hz
      intro hroot
      rcases hroot with hroot | hroot
      · rw [hl] at hroot; exact absurd hroot (by simp)
      · rw [hl] at hroot
        exact hne (Option.some_injective _ hroot)
    · exact ih z hz

theorem rootPath_root_not_mem {σ : List (String × String)} {x : String}
    {l : List String} {r : String} (h : RootPath σ x l r) : r ∉ l := by
  intro hr
  obtain ⟨l1, l2, hsplit⟩ := List.append_of_mem hr
  subst hsplit
  have hsub := rootPath_sub h
  have hroot : RootPath σ r [] r := RootPath.root r (rootPath_isRoot h)
  obtain ⟨he, _⟩ := rootPath_unique hsub hroot
  exact absurd he (by simp)

theorem rootPath_nodup {σ : List (String × String)} {x : String}
    {l : List String} {r : String} (h : RootPath σ x l r) : l.Nodup := by
  induction h with
  | root => exact List.nodup_nil
  | step a p l2 r2 hl hne hp ih =>
    refine List.nodup_cons.mpr ⟨?_, ih⟩
    intro ha
    obtain ⟨l1, l3, hsplit⟩ := List.append_of_mem ha
    subst hsplit
    have hsub := rootPath_sub hp
    have hfull : RootPath σ a (a :: (l1 ++ a :: l3)) r2 :=
      RootPath.step a p (l1 ++ a :: l3) r2 hl hne hp
    obtain ⟨he, _⟩ := rootPath_unique hfull hsub
    have := congrArg List.length he
    simp at this
    omega

theorem rootPath_mem_keys {σ : List (String × String)} {x : String}
    {l : List String} {r : String} (h : RootPath σ x l r) :
    ∀ z ∈ l, z ∈ ufKeys σ := by
  induction h with
  | root => simp
  | step a p l2 r2 hl hne hp ih =>
    intro z hz
    rcases List.mem_cons.mp hz with hz | hz
    · subst hz; exact alookup_isSome_mem hl
    · exact ih z hz

theorem rootPath_length_le {σ : List (String × String)} {x : String}
    {l : List String} {r : String}
    (h : RootPath σ x l r) : l.length ≤ σ.length := by
  have hsub : l ⊆ ufKeys σ := fun z hz => rootPath_mem_keys h z hz
  have := (List.subperm_of_subset (rootPath_nodup h) hsub).length_le
  simpa [ufKeys] using this

theorem rootPath_total (σ : List (String × String)) (hinv : UFInv σ)
    (x : String) : ∃ l r, RootPath σ x l r := by
  by_cases hx : x ∈ ufKeys σ
  · exact hinv.total x hx
  · exact ⟨[], x, RootPath.root x (Or.inl (alookup_eq_none_of_not_mem hx))⟩

theorem rootOf_unique {σ : List (String × String)} {x r r' : String}
    (h : rootOf σ x r) (h' : rootOf σ x r') : r = r' := by
  obtain ⟨l, hl⟩ := h
  obtain ⟨l', hl'⟩ := h'
  exact (rootPath_unique hl hl').2

/-! ## Union-find: class preservation under the two mutations of find -/

theorem append_self_classes {σ : List (String × String)} {x : String}
    (hx : x ∉ ufKeys σ) :
    (∀ y, alookup (σ ++ [(x, x)]) y = if y = x then some x else alookup σ y)
    ∧ (∀ y, IsRoot σ y ↔ IsRoot (σ ++ [(x, x)]) y)
    ∧ (∀ y s, rootOf σ y s ↔ rootOf (σ ++ [(x, x)]) y s) := by
  have hnone : alookup σ x = none := alookup_eq_none_of_not_mem hx
  have hlook : ∀ y, alookup (σ ++ [(x, x)]) y = if y = x then some x else alookup σ y := by
    intro y
    rw [alookup_append]
    by_cases hy : y = x
    · subst hy
      simp [hnone, alookup]
    · cases hs : alookup σ y with
      | none => simp [alookup, if_neg (fun hh : x = y => hy hh.symm), if_neg hy]
      | some v => simp [if_neg hy]
  have hroots : ∀ y, IsRoot σ y ↔ IsRoot (σ ++ [(x, x)]) y := by
    intro y
    by_cases hy : y = x
    · subst hy
      constructor
      · intro _; exact Or.inr (by rw [hlook]; simp)
      · intro _; exact Or.inl hnone
    · unfold IsRoot
      rw [hlook, if_neg hy]
  refine ⟨hlook, hroots, ?_⟩
  intro y s
  constructor
  · intro ⟨l, hp⟩
    refine ⟨l, ?_⟩
    induction hp with
    | root t ht => exact RootPath.root t ((hroots t).mp ht)
    | step a p l2 r2 hl hne _ ih =>
      refine RootPath.step a p l2 r2 ?_ hne ih
      rw [hlook]
      by_cases ha : a = x
      · rw [ha, hnone] at hl; exact absurd hl (by simp)
      · rw [if_neg ha]; exact hl
  · intro ⟨l, hp⟩
    refine ⟨l, ?_⟩
    induction hp with
    | root t ht => exact RootPath.root t ((hroots t).mpr ht)
    | step a p l2 r2 hl hne _ ih =>
      rw [hlook] at hl
      by_cases ha : a = x
      · rw [if_pos ha] at hl
        have : p = x := (Option.some_injective _ hl).symm
        exact absurd (this.trans ha.symm) hne
      · rw [if_neg ha] at hl
        exact RootPath.step a p l2 r2 hl hne ih

theorem aset_root_classes {σ1 : List (String × String)} {x q r : String}
    (hq : alookup σ1 x = some q) (hqx : q ≠ x) (hr : rootOf σ1 x r)
    (hrr : alookup σ1 r = some r) :
    (∀ y, IsRoot σ1 y ↔ IsRoot (aset σ1 x r) y)
    ∧ (∀ y s, rootOf σ1 y s ↔ rootOf (aset σ1 x r) y s) := by
  have hrx : r ≠ x := by
    obtain ⟨l, hl⟩ := hr
    cases hl with
    | root _ ht =>
      rcases ht with ht | ht
      · rw [hq] at ht; exact absurd ht (by simp)
      · rw [hq] at ht; exact absurd (Option.some_injective _ ht) hqx
    | step _ p l2 _ hlk hne hp =>
      intro hcontra
      have hnm := rootPath_root_not_mem (RootPath.step x p l2 r hlk hne hp)
      rw [hcontra] at hnm
      exact hnm (List.mem_cons_self x l2)
  have hxkeys : x ∈ ufKeys σ1 := alookup_isSome_mem hq
  have hlookx : alookup (aset σ1 x r) x = some r := alookup_aset_self r hxkeys
  have hlookne : ∀ y, y ≠ x → alookup (aset σ1 x r) y = alookup σ1 y :=
    fun y hy => alookup_aset_ne r hy
  have hroots : ∀ y, IsRoot σ1 y ↔ IsRoot (aset σ1 x r) y := by
    intro y
    by_cases hy : y = x
    · subst hy
      constructor
      · intro ht
        rcases ht with ht | ht
        · rw [hq] at ht; exact absurd ht (by simp)
        · rw [hq] at ht; exact absurd (Option.some_injective _ ht) hqx
      · intro ht
        rcases ht with ht | ht
        · rw [hlookx] at ht; exact absurd ht (by simp)
        · rw [hlookx] at ht
          exact absurd (Option.some_injective _ ht) hrx
    · unfold IsRoot
      rw [hlookne y hy]
  have hrootr : IsRoot (aset σ1 x r) r := by
    exact Or.inr (by rw [hlookne r hrx]; exact hrr)
  refine ⟨hroots, ?_⟩
  intro y s
  constructor
  · intro ⟨l, hp⟩
    induction hp with
    | root t ht => exact ⟨[], RootPath.root t ((hroots t).mp ht)⟩
    | step a p l2 r2 hlk hne hp ih =>
      by_cases ha : a = x
      · have hax : rootOf σ1 a r2 := ⟨a :: l2, RootPath.step a p l2 r2 hlk hne hp⟩
        have hra : rootOf σ1 a r := by rw [ha]; exact hr
        have hs : r2 = r := rootOf_unique hax hra
        rw [ha, hs]
        exact ⟨[x], RootPath.step x r [] r hlookx hrx (RootPath.root r hrootr)⟩
      · obtain ⟨l3, hp3⟩ := ih
        exact ⟨a :: l3, RootPath.step a p l3 r2 (by rw [hlookne a ha]; exact hlk) hne hp3⟩
  · intro ⟨l, hp⟩
    induction hp with
    | root t ht => exact ⟨[], RootPath.root t ((hroots t).mpr ht)⟩
    | step a p l2 r2 hlk hne hp ih =>
      by_cases ha : a = x
      · rw [ha, hlookx] at hlk
        have hpr : p = r := (Option.some_injective _ hlk).symm
        obtain ⟨l3, hp3⟩ := ih
        have hs : r2 = r := by
          have h1 : rootOf σ1 p r2 := ⟨l3, hp3⟩
          have h2 : rootOf σ1 p p :=
            ⟨[], RootPath.root p (by rw [hpr]; exact Or.inr hrr)⟩
          exact (rootOf_unique h1 h2).trans hpr
        rw [ha, hs]
        exact hr
      · rw [hlookne a ha] at hlk
        obtain ⟨l3, hp3⟩ := ih
        exact ⟨a :: l3, RootPath.step a p l3 r2 hlk hne hp3⟩

/-! ## Union-find: full specification of find -/

theorem findUF_spec {σ : List (String × String)} (hinv : UFInv σ)
    {x : String} {l : List String} {r : String} (hpath : RootPath σ x l r) :
    ∀ fuel, l.length < fuel →
      (findUF fuel σ x).2 = r
      ∧ UFInv (findUF fuel σ x).1
      ∧ (∀ y, IsRoot σ y ↔ IsRoot (findUF fuel σ x).1 y)
      ∧ (∀ y s, rootOf σ y s ↔ rootOf (findUF fuel σ x).1 y s)
      ∧ ufKeys (findUF fuel σ x).1
          = (if x ∈ ufKeys σ then ufKeys σ else ufKeys σ ++ [x])
      ∧ alookup (findUF fuel σ x).1 r = some r
      ∧ (∀ y, y ∉ l → y ≠ x → alookup (findUF fuel σ x).1 y = alookup σ y) := by
  induction hpath with
  | root t ht =>
    intro fuel hfuel
    cases fuel with
    | zero => exact absurd hfuel (by omega)
    | succ f =>
      rcases ht with hnone | hsome
      · have hxk : t ∉ ufKeys σ := fun hm => by
          obtain ⟨v, hv⟩ := mem_alookup_isSome hm
          rw [hnone] at hv
          exact absurd hv (by simp)
        have hfe : findUF (f + 1) σ t = (σ ++ [(t, t)], t) := by
          simp [findUF, hnone]
        obtain ⟨hlook, hroots, hclasses⟩ := append_self_classes hxk
        rw [hfe]
        refine ⟨rfl, ?_, hroots, hclasses, ?_, ?_, ?_⟩
        · refine ⟨?_, ?_, ?_⟩
          · rw [ufKeys_append]
            have h1 : ufKeys [(t, t)] = [t] := rfl
            rw [h1]
            refine List.Nodup.append hinv.nodup (List.nodup_singleton t) ?_
            intro z hz hz2
            have hzt : z = t := by simpa using hz2
            exact hxk (hzt ▸ hz)
          · intro y py hy
            rw [hlook] at hy
            by_cases hyt : y = t
            · rw [if_pos hyt] at hy
              have : py = t := (Option.some_injective _ hy).symm
              rw [this, ufKeys_append]
              simp [ufKeys]
            · rw [if_neg hyt] at hy
              rw [ufKeys_append]
              exact List.mem_append_left _ (hinv.closed y py hy)
          · intro y hy
            rw [ufKeys_append] at hy
            rcases List.mem_append.mp hy with hy | hy
            · obtain ⟨l2, r2, hp2⟩ := hinv.total y hy
              obtain ⟨l3, hp3⟩ := (hclasses y r2).mp ⟨l2, hp2⟩
              exact ⟨l3, r2, hp3⟩
            · have hyt : y = t := by simpa [ufKeys] using hy
              subst hyt
              exact ⟨[], y, RootPath.root y (Or.inr (by rw [hlook]; simp))⟩
        · rw [if_neg hxk, ufKeys_append]
          simp [ufKeys]
        · rw [hlook]; simp
        · intro y _ hyt
          rw [hlook, if_neg hyt]
      · have hxk : t ∈ ufKeys σ := alookup_isSome_mem hsome
        have hfe : findUF (f + 1) σ t = (σ, t) := by
          simp [findUF, hsome]
        rw [hfe]
        exact ⟨rfl, hinv, fun y => Iff.rfl, fun y s => Iff.rfl,
          by rw [if_pos hxk], hsome, fun y _ _ => rfl⟩
  | step a p l2 r2 hlk hne hp ih =>
    intro fuel hfuel
    cases fuel with
    | zero => exact absurd hfuel (by omega)
    | succ f =>
      have hfuel2 : l2.length < f := by
        simp only [List.length_cons] at hfuel
        omega
      obtain ⟨ih1, ih2, ih3, ih4, ih5, ih6, ih7⟩ := ih f hfuel2
      have hfull : RootPath σ a (a :: l2) r2 := RootPath.step a p l2 r2 hlk hne hp
      have hnodupl : a ∉ l2 := (List.nodup_cons.mp (rootPath_nodup hfull)).1
      have hanp : a ≠ p := fun h => hne h.symm
      have hfe : findUF (f + 1) σ a
          = (aset (findUF f σ p).1 a (findUF f σ p).2, (findUF f σ p).2) := by
        simp [findUF, hlk, if_neg hne]
      have hq1 : alookup (findUF f σ p).1 a = some p := by
        rw [ih7 a hnodupl hanp]; exact hlk
      have hr1 : rootOf (findUF f σ p).1 a r2 := (ih4 a r2).mp ⟨a :: l2, hfull⟩
      have hr2not : r2 ∉ a :: l2 := rootPath_root_not_mem hfull
      have hr2a : r2 ≠ a := fun h => hr2not (h ▸ List.mem_cons_self a l2)
      obtain ⟨hroots2, hclasses2⟩ := aset_root_classes hq1 hne hr1 ih6
      rw [hfe, ih1]
      have hkeyseq : ufKeys (aset (findUF f σ p).1 a r2) = ufKeys (findUF f σ p).1 :=
        ufKeys_aset _ a r2
      have hpk : p ∈ ufKeys σ := hinv.closed a p hlk
      have hkeys1 : ufKeys (findUF f σ p).1 = ufKeys σ := by rw [ih5, if_pos hpk]
      refine ⟨rfl, ?_, ?_, ?_, ?_, ?_, ?_⟩
      · refine ⟨?_, ?_, ?_⟩
        · rw [hkeyseq]; exact ih2.nodup
        · intro y py hy
          rw [hkeyseq]
          by_cases hya : y = a
          · rw [hya, alookup_aset_self r2 (alookup_isSome_mem hq1)] at hy
            have : py = r2 := (Option.some_injective _ hy).symm
            rw [this]
            exact alookup_isSome_mem ih6
          · rw [alookup_aset_ne r2 hya] at hy
            exact ih2.closed y py hy
        · intro y hy
          rw [hkeyseq] at hy
          obtain ⟨l3, r3, hp3⟩ := ih2.total y hy
          obtain ⟨l4, hp4⟩ := (hclasses2 y r3).mp ⟨l3, hp3⟩
          exact ⟨l4, r3, hp4⟩
      · intro y
        exact (ih3 y).trans (hroots2 y)
      · intro y s
        exact (ih4 y s).trans (hclasses2 y s)
      · rw [hkeyseq, hkeys1, if_pos (alookup_isSome_mem hlk)]
      · rw [alookup_aset_ne r2 hr2a]
        exact ih6
      · intro y hyl hya
        rw [alookup_aset_ne r2 hya]
        cases hp with
        | root _ hroot =>
          have hppk : alookup σ p = some p := by
            obtain ⟨v, hv⟩ := mem_alookup_isSome hpk
            rcases hroot with hh | hh
            · rw [hh] at hv; exact absurd hv (by simp)
            · exact hh
          cases f with
          | zero => exact absurd hfuel2 (by omega)
          | succ f2 =>
            have hfe2 : findUF (f2 + 1) σ p = (σ, p) := by
              simp [findUF, hppk]
            rw [hfe2]
        | step _ p3 l3 _ hlk3 hne3 hp3 =>
          have hyp : y ≠ p := by
            intro hcontra
            exact hyl (by rw [hcontra]; exact List.mem_cons_of_mem a (List.mem_cons_self p l3))
          have hyl2 : y ∉ p :: l3 := fun hm => hyl (List.mem_cons_of_mem a hm)
          exact ih7 y hyl2 hyp

/-! ## Union-find: find wrapper and union -/

theorem ufEquiv_refl (σ : List (String × String)) (hinv : UFInv σ) (a : String) :
    ufEquiv σ a a := by
  obtain ⟨l, r, hp⟩ := rootPath_total σ hinv a
  exact ⟨r, ⟨l, hp⟩, ⟨l, hp⟩⟩

theorem ufEquiv_symm {σ : List (String × String)} {a b : String}
    (h : ufEquiv σ a b) : ufEquiv σ b a := by
  obtain ⟨r, h1, h2⟩ := h
  exact ⟨r, h2, h1⟩

theorem ufEquiv_trans {σ : List (String × String)} {a b c : String}
    (h1 : ufEquiv σ a b) (h2 : ufEquiv σ b c) : ufEquiv σ a c := by
  obtain ⟨r1, ha, hb⟩ := h1
  obtain ⟨r2, hb2, hc⟩ := h2
  have : r1 = r2 := rootOf_unique hb hb2
  exact ⟨r1, ha, this ▸ hc⟩

theorem find_spec {σ : List (String × String)} (hinv : UFInv σ) (x : String) :
    rootOf σ x (find σ x).2
    ∧ UFInv (find σ x).1
    ∧ (∀ y, IsRoot σ y ↔ IsRoot (find σ x).1 y)
    ∧ (∀ y s, rootOf σ y s ↔ rootOf (find σ x).1 y s)
    ∧ alookup (find σ x).1 (find σ x).2 = some (find σ x).2
    ∧ (ufKeys (find σ x).1 = ufKeys σ ∨ ufKeys (find σ x).1 = ufKeys σ ++ [x]) := by
  obtain ⟨l, r, hp⟩ := rootPath_total σ hinv x
  have hlen : l.length < σ.length + 1 :=
    Nat.lt_succ_of_le (rootPath_length_le hp)
  obtain ⟨h1, h2, h3, h4, h5, h6, _⟩ := findUF_spec hinv hp (σ.length + 1) hlen
  unfold find
  rw [h1]
  refine ⟨⟨l, hp⟩, h2, h3, h4, h6, ?_⟩
  by_cases hx : x ∈ ufKeys σ
  · left; rw [h5, if_pos hx]
  · right; rw [h5, if_neg hx]

theorem aset_link_classes {σ2 : List (String × String)} {px py : String}
    (hpx : alookup σ2 px = some px) (hpy : alookup σ2 py = some py)
    (hne : px ≠ py) :
    ∀ a s, rootOf (aset σ2 px py) a s ↔
      ((rootOf σ2 a s ∧ s ≠ px) ∨ (rootOf σ2 a px ∧ s = py)) := by
  have hpxk : px ∈ ufKeys σ2 := alookup_isSome_mem hpx
  have hlookpx : alookup (aset σ2 px py) px = some py := alookup_aset_self py hpxk
  have hlookne : ∀ y, y ≠ px → alookup (aset σ2 px py) y = alookup σ2 y :=
    fun y hy => alookup_aset_ne py hy
  have hpy' : alookup (aset σ2 px py) py = some py := by
    rw [hlookne py (fun h => hne h.symm)]; exact hpy
  have hnotrootpx : ¬IsRoot (aset σ2 px py) px := by
    intro hh
    rcases hh with hh | hh
    · rw [hlookpx] at hh; exact absurd hh (by simp)
    · rw [hlookpx] at hh
      exact hne ((Option.some_injective _ hh).symm)
  intro a s
  constructor
  · intro ⟨l, hp⟩
    induction hp with
    | root t ht =>
      have htpx : t ≠ px := fun h => hnotrootpx (h ▸ ht)
      have ht2 : IsRoot σ2 t := by
        unfold IsRoot at ht ⊢
        rw [hlookne t htpx] at ht
        exact ht
      exact Or.inl ⟨⟨[], RootPath.root t ht2⟩, htpx⟩
    | step a2 q l2 r3 hlk hne2 hsub ih =>
      by_cases ha : a2 = px
      · rw [ha, hlookpx] at hlk
        have hq : q = py := (Option.some_injective _ hlk).symm
        subst hq
        rcases ih with ⟨hq1, hq2⟩ | ⟨hq1, hq2⟩
        · have hpyroot : rootOf σ2 q q := ⟨[], RootPath.root q (Or.inr hpy)⟩
          have : r3 = q := rootOf_unique hq1 hpyroot
          exact Or.inr ⟨by rw [ha]; exact ⟨[], RootPath.root px (Or.inr hpx)⟩, this⟩
        · have hpyroot : rootOf σ2 q q := ⟨[], RootPath.root q (Or.inr hpy)⟩
          have : q = px := rootOf_unique hpyroot hq1
          exact absurd this.symm hne
      · rw [hlookne a2 ha] at hlk
        rcases ih with ⟨⟨l3, hq1⟩, hq2⟩ | ⟨⟨l3, hq1⟩, hq2⟩
        · exact Or.inl ⟨⟨a2 :: l3, RootPath.step a2 q l3 r3 hlk hne2 hq1⟩, hq2⟩
        · exact Or.inr ⟨⟨a2 :: l3, RootPath.step a2 q l3 px hlk hne2 hq1⟩, hq2⟩
  · have haux1 : ∀ a2 l2 s2, RootPath σ2 a2 l2 s2 → s2 ≠ px →
        rootOf (aset σ2 px py) a2 s2 := by
      intro a2 l2 s2 hp
      induction hp with
      | root t ht =>
        intro hts
        refine ⟨[], RootPath.root t ?_⟩
        unfold IsRoot at ht ⊢
        rw [hlookne t hts]
        exact ht
      | step a3 q l3 r3 hlk hne2 hsub ih =>
        intro hr3
        have ha3 : a3 ≠ px := by
          intro hcontra
          rw [hcontra] at hlk hne2
          rw [hpx] at hlk
          exact hne2 (Option.some_injective _ hlk).symm
        obtain ⟨l4, hq1⟩ := ih hr3
        exact ⟨a3 :: l4,
          RootPath.step a3 q l4 r3 (by rw [hlookne a3 ha3]; exact hlk) hne2 hq1⟩
    have haux2 : ∀ a2 l2 s2, RootPath σ2 a2 l2 s2 → s2 = px →
        rootOf (aset σ2 px py) a2 py := by
      intro a2 l2 s2 hp
      induction hp with
      | root t ht =>
        intro hteq
        rw [hteq]
        exact ⟨[px], RootPath.step px py [] py hlookpx (fun h => hne h.symm)
          (RootPath.root py (Or.inr hpy'))⟩
      | step a3 q l3 r3 hlk hne2 hsub ih =>
        intro hr3
        have ha3 : a3 ≠ px := by
          intro hcontra
          rw [hcontra] at hlk hne2
          rw [hpx] at hlk
          exact hne2 (Option.some_injective _ hlk).symm
        obtain ⟨l4, hq1⟩ := ih hr3
        exact ⟨a3 :: l4,
          RootPath.step a3 q l4 py (by rw [hlookne a3 ha3]; exact hlk) hne2 hq1⟩
    intro h
    rcases h with ⟨⟨l, hp⟩, hs⟩ | ⟨⟨l, hp⟩, hs⟩
    · exact haux1 a l s hp hs
    · rw [hs]
      exact haux2 a l px hp rfl

theorem unionUF_spec {σ : List (String × String)} (hinv : UFInv σ) (x y : String) :
    UFInv (unionUF σ x y)
    ∧ (∀ a b, ufEquiv (unionUF σ x y) a b ↔
        (ufEquiv σ a b ∨ (ufEquiv σ a x ∧ ufEquiv σ y b)
          ∨ (ufEquiv σ a y ∧ ufEquiv σ x b))) := by
  obtain ⟨hρx, hinv1, hroots1, hclasses1, hself1, hkeys1⟩ := find_spec hinv x
  obtain ⟨hρy1, hinv2, hroots2, hclasses2, hself2, hkeys2⟩ := find_spec hinv1 y
  have hρy : rootOf σ y (find (find σ x).1 y).2 := (hclasses1 y _).mpr hρy1
  have hclasses12 : ∀ a s, rootOf σ a s ↔ rootOf (find (find σ x).1 y).1 a s :=
    fun a s => (hclasses1 a s).trans (hclasses2 a s)
  have hequiv12 : ∀ a b, ufEquiv σ a b ↔ ufEquiv (find (find σ x).1 y).1 a b := by
    intro a b
    unfold ufEquiv
    exact exists_congr fun s => and_congr (hclasses12 a s) (hclasses12 b s)
  have hρx2 : rootOf (find (find σ x).1 y).1 x (find σ x).2 :=
    (hclasses12 x _).mp hρx
  have hρy2 : rootOf (find (find σ x).1 y).1 y (find (find σ x).1 y).2 :=
    (hclasses2 y _).mp hρy1
  have hpxk2 : (find σ x).2 ∈ ufKeys (find (find σ x).1 y).1 := by
    have h1 : (find σ x).2 ∈ ufKeys (find σ x).1 := alookup_isSome_mem hself1
    rcases hkeys2 with h | h
    · rw [h]; exact h1
    · rw [h]; exact List.mem_append_left _ h1
  have hlookpx2 : alookup (find (find σ x).1 y).1 (find σ x).2 = some (find σ x).2 := by
    have hroot : IsRoot (find (find σ x).1 y).1 (find σ x).2 :=
      (hroots2 _).mp (Or.inr hself1)
    obtain ⟨v, hv⟩ := mem_alookup_isSome hpxk2
    rcases hroot with hh | hh
    · rw [hh] at hv; exact absurd hv (by simp)
    · exact hh
  by_cases hxy : (find σ x).2 = (find (find σ x).1 y).2
  · have hcond : ¬((find σ x).2 ≠ (find (find σ x).1 y).2) := fun h => h hxy
    have hu : unionUF σ x y = (find (find σ x).1 y).1 := by
      simp only [unionUF]
      rw [if_neg hcond]
    rw [hu]
    refine ⟨hinv2, ?_⟩
    intro a b
    rw [← hequiv12 a b]
    constructor
    · exact Or.inl
    · intro h
      have hxyeq : ufEquiv σ x y := ⟨(find σ x).2, hρx, by rw [hxy]; exact hρy⟩
      rcases h with h | ⟨h1, h2⟩ | ⟨h1, h2⟩
      · exact h
      · exact ufEquiv_trans (ufEquiv_trans h1 hxyeq) h2
      · exact ufEquiv_trans (ufEquiv_trans h1 (ufEquiv_symm hxyeq)) h2
  · have hu : unionUF σ x y
        = aset (find (find σ x).1 y).1 (find σ x).2 (find (find σ x).1 y).2 := by
      simp only [unionUF]
      rw [if_pos hxy]
    have hlink := aset_link_classes hlookpx2 hself2 hxy
    have hpynepx : (find (find σ x).1 y).2 ≠ (find σ x).2 := fun h => hxy h.symm
    rw [hu]
    constructor
    · refine ⟨?_, ?_, ?_⟩
      · rw [ufKeys_aset]; exact hinv2.nodup
      · intro z pz hz
        rw [ufKeys_aset]
        by_cases hzx : z = (find σ x).2
        · rw [hzx, alookup_aset_self _ hpxk2] at hz
          have : pz = (find (find σ x).1 y).2 := (Option.some_injective _ hz).symm
          rw [this]
          exact alookup_isSome_mem hself2
        · rw [alookup_aset_ne _ hzx] at hz
          exact hinv2.closed z pz hz
      · intro z hz
        rw [ufKeys_aset] at hz
        obtain ⟨l, s, hp⟩ := hinv2.total z hz
        by_cases hs : s = (find σ x).2
        · obtain ⟨l2, hp2⟩ := (hlink z _).mpr
            (Or.inr ⟨⟨l, by rw [hs] at hp; exact hp⟩, rfl⟩)
          exact ⟨l2, _, hp2⟩
        · obtain ⟨l2, hp2⟩ := (hlink z s).mpr (Or.inl ⟨⟨l, hp⟩, hs⟩)
          exact ⟨l2, s, hp2⟩
    · intro a b
      constructor
      · intro ⟨s, hA', hB'⟩
        rcases (hlink a s).mp hA' with ⟨hA, hsx⟩ | ⟨hA, hsy⟩
        · rcases (hlink b s).mp hB' with ⟨hB, _⟩ | ⟨hB, hsy⟩
          · exact Or.inl ((hequiv12 a b).mpr ⟨s, hA, hB⟩)
          · rw [hsy] at hA
            refine Or.inr (Or.inr ⟨?_, ?_⟩)
            · exact (hequiv12 a y).mpr ⟨_, hA, hρy2⟩
            · exact (hequiv12 x b).mpr ⟨_, hρx2, hB⟩
        · rcases (hlink b s).mp hB' with ⟨hB, _⟩ | ⟨hB, _⟩
          · rw [hsy] at hB
            refine Or.inr (Or.inl ⟨?_, ?_⟩)
            · exact (hequiv12 a x).mpr ⟨_, hA, hρx2⟩
            · exact (hequiv12 y b).mpr ⟨_, hρy2, hB⟩
          · exact Or.inl ((hequiv12 a b).mpr ⟨_, hA, hB⟩)
      · intro h
        rcases h with h | ⟨h1, h2⟩ | ⟨h1, h2⟩
        · obtain ⟨s, hA, hB⟩ := (hequiv12 a b).mp h
          by_cases hs : s = (find σ x).2
          · rw [hs] at hA hB
            exact ⟨_, (hlink a _).mpr (Or.inr ⟨hA, rfl⟩),
              (hlink b _).mpr (Or.inr ⟨hB, rfl⟩)⟩
          · exact ⟨s, (hlink a s).mpr (Or.inl ⟨hA, hs⟩),
              (hlink b s).mpr (Or.inl ⟨hB, hs⟩)⟩
        · obtain ⟨s1, hA, hX⟩ := h1
          obtain ⟨s2, hY, hB⟩ := h2
          have hs1 : s1 = (find σ x).2 := rootOf_unique hX hρx
          have hs2 : s2 = (find (find σ x).1 y).2 := rootOf_unique hY hρy
          rw [hs1] at hA
          rw [hs2] at hB
          refine ⟨(find (find σ x).1 y).2,
            (hlink a _).mpr (Or.inr ⟨(hclasses12 a _).mp hA, rfl⟩),
            (hlink b _).mpr (Or.inl ⟨(hclasses12 b _).mp hB, hpynepx⟩)⟩
        · obtain ⟨s1, hA, hY⟩ := h1
          obtain ⟨s2, hX, hB⟩ := h2
          have hs1 : s1 = (find (find σ x).1 y).2 := rootOf_unique hY hρy
          have hs2 : s2 = (find σ x).2 := rootOf_unique hX hρx
          rw [hs1] at hA
          rw [hs2] at hB
          refine ⟨(find (find σ x).1 y).2,
            (hlink a _).mpr (Or.inl ⟨(hclasses12 a _).mp hA, hpynepx⟩),
            (hlink b _).mpr (Or.inr ⟨(hclasses12 b _).mp hB, rfl⟩)⟩

/-! ## Union-find: the union loop builds exactly the edge-generated equivalence -/

theorem UFInv_nil : UFInv [] := by
  refine ⟨List.nodup_nil, ?_, ?_⟩
  · intro x p h
    simp [alookup] at h
  · intro x h
    simp [ufKeys] at h

theorem rootOf_nil {a s : String} : rootOf [] a s ↔ s = a := by
  constructor
  · intro ⟨l, hp⟩
    cases hp with
    | root => rfl
    | step _ p l2 _ hlk hne hp2 => simp [alookup] at hlk
  · intro h
    rw [h]
    exact ⟨[], RootPath.root a (Or.inl rfl)⟩

theorem ufEquiv_nil {a b : String} : ufEquiv [] a b ↔ a = b := by
  constructor
  · intro ⟨r, h1, h2⟩
    rw [rootOf_nil.mp h1] at h2
    exact rootOf_nil.mp h2
  · intro h
    rw [h]
    exact ⟨b, rootOf_nil.mpr rfl, rootOf_nil.mpr rfl⟩

theorem eqvGen_of_empty {a b : String}
    (h : Relation.EqvGen (pairRel []) a b) : a = b := by
  induction h with
  | rel u v huv => simp [pairRel] at huv
  | refl u => rfl
  | symm u v _ ih => exact ih.symm
  | trans u v w _ _ ih1 ih2 => exact ih1.trans ih2

theorem eqvGen_lift {ps : List (String × String)} (pr : String × String)
    {a b : String} (h : Relation.EqvGen (pairRel ps) a b) :
    Relation.EqvGen (pairRel (ps ++ [pr])) a b :=
  Relation.EqvGen.mono (fun u v huv => List.mem_append_left _ huv) h

theorem eqvGen_snoc (ps : List (String × String)) (x y : String) :
    ∀ a b, Relation.EqvGen (pairRel (ps ++ [(x, y)])) a b ↔
      (Relation.EqvGen (pairRel ps) a b
        ∨ (Relation.EqvGen (pairRel ps) a x ∧ Relation.EqvGen (pairRel ps) y b)
        ∨ (Relation.EqvGen (pairRel ps) a y ∧ Relation.EqvGen (pairRel ps) x b)) := by
  intro a b
  constructor
  · intro h
    induction h with
    | rel u v huv =>
      rcases List.mem_append.mp huv with hm | hm
      · exact Or.inl (Relation.EqvGen.rel u v hm)
      · have : (u, v) = (x, y) := by simpa using hm
        have hux : u = x := congrArg Prod.fst this
        have hvy : v = y := congrArg Prod.snd this
        rw [hux, hvy]
        exact Or.inr (Or.inl ⟨Relation.EqvGen.refl x, Relation.EqvGen.refl y⟩)
    | refl u => exact Or.inl (Relation.EqvGen.refl u)
    | symm u v _ ih =>
      rcases ih with h | ⟨h1, h2⟩ | ⟨h1, h2⟩
      · exact Or.inl (Relation.EqvGen.symm u v h)
      · exact Or.inr (Or.inr ⟨Relation.EqvGen.symm _ _ h2, Relation.EqvGen.symm _ _ h1⟩)
      · exact Or.inr (Or.inl ⟨Relation.EqvGen.symm _ _ h2, Relation.EqvGen.symm _ _ h1⟩)
    | trans u v w _ _ ih1 ih2 =>
      rcases ih1 with h1 | ⟨h1a, h1b⟩ | ⟨h1a, h1b⟩
      · rcases ih2 with h2 | ⟨h2a, h2b⟩ | ⟨h2a, h2b⟩
        · exact Or.inl (Relation.EqvGen.trans _ _ _ h1 h2)
        · exact Or.inr (Or.inl ⟨Relation.EqvGen.trans _ _ _ h1 h2a, h2b⟩)
        · exact Or.inr (Or.inr ⟨Relation.EqvGen.trans _ _ _ h1 h2a, h2b⟩)
      · rcases ih2 with h2 | ⟨h2a, h2b⟩ | ⟨h2a, h2b⟩
        · exact Or.inr (Or.inl ⟨h1a, Relation.EqvGen.trans _ _ _ h1b h2⟩)
        · exact Or.inr (Or.inl ⟨h1a, h2b⟩)
        · exact Or.inl (Relation.EqvGen.trans _ _ _ h1a h2b)
      · rcases ih2 with h2 | ⟨h2a, h2b⟩ | ⟨h2a, h2b⟩
        · exact Or.inr (Or.inr ⟨h1a, Relation.EqvGen.trans _ _ _ h1b h2⟩)
        · exact Or.inl (Relation.EqvGen.trans _ _ _ h1a h2b)
        · exact Or.inr (Or.inr ⟨h1a, h2b⟩)
  · intro h
    have hxy : Relation.EqvGen (pairRel (ps ++ [(x, y)])) x y :=
      Relation.EqvGen.rel x y (List.mem_append_right _ (by simp))
    rcases h with h | ⟨h1, h2⟩ | ⟨h1, h2⟩
    · exact eqvGen_lift _ h
    · exact Relation.EqvGen.trans _ _ _
        (Relation.EqvGen.trans _ _ _ (eqvGen_lift _ h1) hxy) (eqvGen_lift _ h2)
    · exact Relation.EqvGen.trans _ _ _
        (Relation.EqvGen.trans _ _ _ (eqvGen_lift _ h1)
          (Relation.EqvGen.symm _ _ hxy)) (eqvGen_lift _ h2)

theorem foldUnion_spec :
    ∀ (pairs : List (String × String)) (σ ps : List (String × String)),
      UFInv σ →
      (∀ a b, ufEquiv σ a b ↔ Relation.EqvGen (pairRel ps) a b) →
      UFInv (pairs.foldl (fun σ2 pr => unionUF σ2 pr.1 pr.2) σ)
      ∧ ∀ a b, ufEquiv (pairs.foldl (fun σ2 pr => unionUF σ2 pr.1 pr.2) σ) a b
          ↔ Relation.EqvGen (pairRel (ps ++ pairs)) a b := by
  intro pairs
  induction pairs with
  | nil =>
    intro σ ps hinv hiff
    simpa using ⟨hinv, hiff⟩
  | cons pr rest ih =>
    intro σ ps hinv hiff
    obtain ⟨hinv', hmerge⟩ := unionUF_spec hinv pr.1 pr.2
    have hiff' : ∀ a b, ufEquiv (unionUF σ pr.1 pr.2) a b ↔
        Relation.EqvGen (pairRel (ps ++ [(pr.1, pr.2)])) a b := by
      intro a b
      rw [hmerge a b, eqvGen_snoc ps pr.1 pr.2 a b]
      rw [hiff a b, hiff a pr.1, hiff pr.2 b, hiff a pr.2, hiff pr.1 b]
    obtain ⟨h1, h2⟩ := ih (unionUF σ pr.1 pr.2) (ps ++ [(pr.1, pr.2)]) hinv' hiff'
    refine ⟨h1, ?_⟩
    intro a b
    rw [List.foldl_cons, h2 a b, List.append_assoc]
    simp

theorem processUnions_eq (ed : List (String × List String)) :
    processUnions ed
      = (unionPairs ed).foldl (fun σ pr => unionUF σ pr.1 pr.2) [] := by
  suffices h : ∀ (ed : List (String × List String)) (σ0 : List (String × String)),
      ed.foldl (fun σ p => p.2.foldl (fun σ2 c => unionUF σ2 p.1 c) σ) σ0
        = (unionPairs ed).foldl (fun σ pr => unionUF σ pr.1 pr.2) σ0 by
    exact h ed []
  intro ed
  induction ed with
  | nil => intro σ0; rfl
  | cons p rest ih =>
    intro σ0
    rw [List.foldl_cons]
    have hflat : unionPairs (p :: rest)
        = p.2.map (fun c => (p.1, c)) ++ unionPairs rest := by
      simp [unionPairs]
    rw [hflat, List.foldl_append, List.foldl_map]
    exact ih _

theorem unionState_spec (rows : List (String × List (Option String))) :
    UFInv (unionState rows)
    ∧ ∀ a b, ufEquiv (unionState rows) a b ↔
        Relation.EqvGen (pairRel (unionPairs (buildEntitiesData rows))) a b := by
  have hbase : ∀ a b, ufEquiv ([] : List (String × String)) a b ↔
      Relation.EqvGen (pairRel []) a b := by
    intro a b
    rw [ufEquiv_nil]
    constructor
    · intro h; rw [h]; exact Relation.EqvGen.refl b
    · exact eqvGen_of_empty
  obtain ⟨h1, h2⟩ := foldUnion_spec (unionPairs (buildEntitiesData rows)) [] [] UFInv_nil hbase
  rw [unionState, processUnions_eq]
  exact ⟨h1, by simpa using h2⟩

/-! ## The entity set: first-insertion-order dedup -/

theorem mem_addNew {l : List String} {x y : String} :
    x ∈ addNew l y ↔ x ∈ l ∨ x = y := by
  unfold addNew
  by_cases h : y ∈ l
  · rw [if_pos h]
    constructor
    · exact Or.inl
    · intro hh
      rcases hh with hh | hh
      · exact hh
      · rw [hh]; exact h
  · rw [if_neg h]
    simp

theorem nodup_addNew {l : List String} (h : l.Nodup) (y : String) :
    (addNew l y).Nodup := by
  unfold addNew
  by_cases hy : y ∈ l
  · rw [if_pos hy]; exact h
  · rw [if_neg hy]
    rw [List.nodup_append]
    exact ⟨h, List.nodup_singleton y, by
      intro z hz hz2
      have : z = y := by simpa using hz2
      exact hy (this ▸ hz)⟩

theorem mem_foldl_addNew (xs : List String) :
    ∀ (acc : List String) (x : String),
      x ∈ xs.foldl addNew acc ↔ x ∈ acc ∨ x ∈ xs := by
  induction xs with
  | nil => intro acc x; simp
  | cons y ys ih =>
    intro acc x
    rw [List.foldl_cons, ih]
    rw [mem_addNew]
    constructor
    · intro h
      rcases h with (h | h) | h
      · exact Or.inl h
      · exact Or.inr (by rw [h]; exact List.mem_cons_self y ys)
      · exact Or.inr (List.mem_cons_of_mem y h)
    · intro h
      rcases h with h | h
      · exact Or.inl (Or.inl h)
      · rcases List.mem_cons.mp h with h | h
        · exact Or.inl (Or.inr h)
        · exact Or.inr h

theorem nodup_foldl_addNew (xs : List String) :
    ∀ (acc : List String), acc.Nodup → (xs.foldl addNew acc).Nodup := by
  induction xs with
  | nil => intro acc h; exact h
  | cons y ys ih =>
    intro acc h
    rw [List.foldl_cons]
    exact ih _ (nodup_addNew h y)

theorem buildAllEntities_nodup (rows : List (String × List (Option String))) :
    (buildAllEntities rows).Nodup := by
  suffices h : ∀ (rows : List (String × List (Option String))) (acc : List String),
      acc.Nodup →
      (rows.foldl
        (fun acc row => (row.2.filterMap id).foldl addNew (addNew acc row.1))
        acc).Nodup by
    exact h rows [] List.nodup_nil
  intro rows
  induction rows with
  | nil => intro acc h; exact h
  | cons row rest ih =>
    intro acc h
    rw [List.foldl_cons]
    exact ih _ (nodup_foldl_addNew _ _ (nodup_addNew h row.1))

theorem mem_buildAllEntities (rows : List (String × List (Option String)))
    (x : String) :
    x ∈ buildAllEntities rows
      ↔ ∃ row ∈ rows, row.1 = x ∨ x ∈ row.2.filterMap id := by
  suffices h : ∀ (rows : List (String × List (Option String))) (acc : List String),
      x ∈ rows.foldl
        (fun acc row => (row.2.filterMap id).foldl addNew (addNew acc row.1)) acc
      ↔ x ∈ acc ∨ ∃ row ∈ rows, row.1 = x ∨ x ∈ row.2.filterMap id by
    rw [buildAllEntities, h rows []]
    simp
  intro rows
  induction rows with
  | nil => intro acc; simp
  | cons row rest ih =>
    intro acc
    rw [List.foldl_cons, ih, mem_foldl_addNew, mem_addNew]
    constructor
    · intro h
      rcases h with ((h | h) | h) | h
      · exact Or.inl h
      · exact Or.inr ⟨row, List.mem_cons_self row rest, Or.inl h.symm⟩
      · exact Or.inr ⟨row, List.mem_cons_self row rest, Or.inr h⟩
      · obtain ⟨r2, hr2, hx⟩ := h
        exact Or.inr ⟨r2, List.mem_cons_of_mem row hr2, hx⟩
    · intro h
      rcases h with h | ⟨r2, hr2, hx⟩
      · exact Or.inl (Or.inl (Or.inl h))
      · rcases List.mem_cons.mp hr2 with hr2 | hr2
        · rcases hx with hx | hx
          · exact Or.inl (Or.inl (Or.inr (by rw [hr2] at hx; exact hx.symm)))
          · exact Or.inl (Or.inr (by rw [hr2] at hx; exact hx))
        · exact Or.inr ⟨r2, hr2, hx⟩

/-! ## The grouping pass: roots recorded for every entity -/

theorem rootPairs_spec {σ0 : List (String × String)} (hinv : UFInv σ0)
    (es : List String) :
    (rootPairs σ0 es).map Prod.fst = es
    ∧ ∀ p ∈ rootPairs σ0 es, rootOf σ0 p.1 p.2 := by
  suffices h : ∀ (es : List String) (σ : List (String × String))
      (acc : List (String × String)),
      UFInv σ → (∀ y s, rootOf σ0 y s ↔ rootOf σ y s) →
      ((es.foldl
          (fun acc e =>
            let fr := find acc.1 e
            (fr.1, acc.2 ++ [(e, fr.2)]))
          (σ, acc)).2.map Prod.fst = acc.map Prod.fst ++ es)
      ∧ ∀ p ∈ (es.foldl
          (fun acc e =>
            let fr := find acc.1 e
            (fr.1, acc.2 ++ [(e, fr.2)]))
          (σ, acc)).2, p ∈ acc ∨ rootOf σ0 p.1 p.2 by
    obtain ⟨h1, h2⟩ := h es σ0 [] hinv (fun y s => Iff.rfl)
    refine ⟨by simpa [rootPairs] using h1, ?_⟩
    intro p hp
    rcases h2 p (by simpa [rootPairs] using hp) with hc | hc
    · simp at hc
    · exact hc
  intro es
  induction es with
  | nil =>
    intro σ acc _ _
    refine ⟨by simp, ?_⟩
    intro p hp
    exact Or.inl hp
  | cons e rest ih =>
    intro σ acc hinv hclasses
    obtain ⟨hρ, hinv', _, hclasses', _, _⟩ := find_spec hinv e
    have hclasses2 : ∀ y s, rootOf σ0 y s ↔ rootOf (find σ e).1 y s :=
      fun y s => (hclasses y s).trans (hclasses' y s)
    have hρ0 : rootOf σ0 e (find σ e).2 := (hclasses e _).mpr hρ
    obtain ⟨ih1, ih2⟩ := ih (find σ e).1 (acc ++ [(e, (find σ e).2)]) hinv' hclasses2
    rw [List.foldl_cons]
    constructor
    · exact ih1.trans (by simp)
    · intro p hp
      rcases ih2 p hp with hc | hc
      · rcases List.mem_append.mp hc with hc | hc
        · exact Or.inl hc
        · have : p = (e, (find σ e).2) := by simpa using hc
          rw [this]
          exact Or.inr hρ0
      · exact Or.inr hc

/-! ## Grouping by root: characterization of the communities dict -/

theorem mem_dedupKeys {l : List String} {x : String} :
    x ∈ dedupKeys l ↔ x ∈ l := by
  rw [dedupKeys, mem_foldl_addNew]
  simp

theorem nodup_dedupKeys (l : List String) : (dedupKeys l).Nodup :=
  nodup_foldl_addNew l [] List.nodup_nil

theorem dedupKeys_snoc (l : List String) (x : String) :
    dedupKeys (l ++ [x]) = addNew (dedupKeys l) x := by
  rw [dedupKeys, List.foldl_append]
  rfl

theorem gfind_isSome (acc : List (String × List String)) (r : String) :
    (acc.find? (fun q => q.1 = r)).isSome = true ↔ r ∈ acc.map Prod.fst := by
  rw [List.find?_isSome]
  constructor
  · intro ⟨q, hq, hq2⟩
    have : q.1 = r := by simpa using hq2
    rw [← this]
    exact List.mem_map_of_mem Prod.fst hq
  · intro h
    obtain ⟨q, hq, hq2⟩ := List.mem_map.mp h
    exact ⟨q, hq, by simpa using hq2⟩

theorem map_update_id {B : List (String × List String)} {r x : String}
    (h : ∀ q ∈ B, q.1 ≠ r) :
    B.map (fun q => if q.1 = r then (q.1, q.2 ++ [x]) else q) = B := by
  induction B with
  | nil => rfl
  | cons b t ih =>
    rw [List.map_cons, if_neg (h b (List.mem_cons_self b t)),
      ih (fun q hq => h q (List.mem_cons_of_mem b hq))]

theorem update_decomp :
    ∀ (acc : List (String × List String)) (r x : String),
      (acc.map Prod.fst).Nodup → r ∈ acc.map Prod.fst →
      ∃ A g B, acc = A ++ g :: B ∧ g.1 = r
        ∧ r ∉ A.map Prod.fst ∧ r ∉ B.map Prod.fst
        ∧ acc.map (fun q => if q.1 = r then (q.1, q.2 ++ [x]) else q)
            = A ++ (g.1, g.2 ++ [x]) :: B := by
  intro acc
  induction acc with
  | nil => intro r x _ h; simp at h
  | cons hd tl ih =>
    intro r x hnd hr
    by_cases hh : hd.1 = r
    · refine ⟨[], hd, tl, by simp, hh, by simp, ?_, ?_⟩
      · rw [List.map_cons] at hnd
        have := (List.nodup_cons.mp hnd).1
        rw [hh] at this
        exact this
      · rw [List.map_cons, if_pos hh, List.nil_append]
        congr 1
        apply map_update_id
        intro q hq hqr
        rw [List.map_cons] at hnd
        have h1 := (List.nodup_cons.mp hnd).1
        rw [hh] at h1
        exact h1 (hqr ▸ List.mem_map_of_mem Prod.fst hq)
    · have hrtl : r ∈ tl.map Prod.fst := by
        rw [List.map_cons] at hr
        rcases List.mem_cons.mp hr with h | h
        · exact absurd h.symm hh
        · exact h
      have hndtl : (tl.map Prod.fst).Nodup := by
        rw [List.map_cons] at hnd
        exact (List.nodup_cons.mp hnd).2
      obtain ⟨A, g, B, h1, h2, h3, h4, h5⟩ := ih r x hndtl hrtl
      refine ⟨hd :: A, g, B, by rw [h1]; rfl, h2, ?_, h4, ?_⟩
      · rw [List.map_cons]
        intro hc
        rcases List.mem_cons.mp hc with hc | hc
        · exact hh hc.symm
        · exact h3 hc
      · rw [List.map_cons, if_neg hh, h5]
        rfl

theorem groupByRoot_snoc (ps : List (String × String)) (p : String × String) :
    groupByRoot (ps ++ [p])
      = (if ((groupByRoot ps).find? (fun q => q.1 = p.2)).isSome
         then (groupByRoot ps).map
           (fun q => if q.1 = p.2 then (q.1, q.2 ++ [p.1]) else q)
         else groupByRoot ps ++ [(p.2, [p.1])]) := by
  rw [groupByRoot, groupByRoot, List.foldl_append]
  rfl

theorem groupByRoot_char (ps : List (String × String)) :
    ((groupByRoot ps).map Prod.fst = dedupKeys (ps.map Prod.snd))
    ∧ (∀ g ∈ groupByRoot ps,
        g.2 = (ps.filter (fun q => q.2 = g.1)).map Prod.fst)
    ∧ List.Perm ((groupByRoot ps).map Prod.snd).flatten (ps.map Prod.fst) := by
  induction ps using List.reverseRecOn with
  | nil => exact ⟨rfl, by simp [groupByRoot], by simp [groupByRoot]⟩
  | append_singleton ps p ih =>
    obtain ⟨ih1, ih2, ih3⟩ := ih
    have hnd : ((groupByRoot ps).map Prod.fst).Nodup := by
      rw [ih1]; exact nodup_dedupKeys _
    rw [groupByRoot_snoc]
    by_cases hr : p.2 ∈ (groupByRoot ps).map Prod.fst
    · rw [if_pos ((gfind_isSome _ _).mpr hr)]
      obtain ⟨A, g, B, hdec, hg1, hA, hB, hmap⟩ := update_decomp _ p.2 p.1 hnd hr
      rw [hmap]
      have hfilterA : ∀ q ∈ A, (ps ++ [p]).filter (fun z => z.2 = q.1)
          = ps.filter (fun z => z.2 = q.1) := by
        intro q hq
        rw [List.filter_append]
        have : List.filter (fun z => z.2 = q.1) [p] = [] := by
          simp only [List.filter, decide_eq_true_eq]
          have hne : p.2 ≠ q.1 := fun hc => hA (hc ▸ List.mem_map_of_mem Prod.fst hq)
          simp [hne]
        rw [this, List.append_nil]
      have hfilterB : ∀ q ∈ B, (ps ++ [p]).filter (fun z => z.2 = q.1)
          = ps.filter (fun z => z.2 = q.1) := by
        intro q hq
        rw [List.filter_append]
        have : List.filter (fun z => z.2 = q.1) [p] = [] := by
          have hne : p.2 ≠ q.1 := fun hc => hB (hc ▸ List.mem_map_of_mem Prod.fst hq)
          simp [hne]
        rw [this, List.append_nil]
      refine ⟨?_, ?_, ?_⟩
      · have hkeq : (A ++ (g.1, g.2 ++ [p.1]) :: B).map Prod.fst
            = (groupByRoot ps).map Prod.fst := by
          rw [hdec]
          simp
        rw [hkeq, ih1, List.map_append]
        simp only [List.map_cons, List.map_nil]
        rw [dedupKeys_snoc]
        have hmem : p.2 ∈ dedupKeys (ps.map Prod.snd) := by rw [← ih1]; exact hr
        rw [addNew, if_pos hmem]
      · intro g2 hg2
        rcases List.mem_append.mp hg2 with hg2 | hg2
        · have hgG : g2 ∈ groupByRoot ps := by
            rw [hdec]; exact List.mem_append_left _ hg2
          rw [hfilterA g2 hg2]
          exact ih2 g2 hgG
        · rcases List.mem_cons.mp hg2 with hg2 | hg2
          · have hgG : g ∈ groupByRoot ps := by
              rw [hdec]
              exact List.mem_append_right _ (List.mem_cons_self g B)
            rw [hg2]
            simp only
            rw [List.filter_append]
            have hpk : List.filter (fun z => z.2 = g.1) [p] = [p] := by
              simp [hg1]
            rw [hpk, List.map_append, ← ih2 g hgG]
            simp
          · have hgG : g2 ∈ groupByRoot ps := by
              rw [hdec]
              exact List.mem_append_right _ (List.mem_cons_of_mem g hg2)
            rw [hfilterB g2 hg2]
            exact ih2 g2 hgG
      · have hval : (A ++ (g.1, g.2 ++ [p.1]) :: B).map Prod.snd
            = A.map Prod.snd ++ (g.2 ++ [p.1]) :: B.map Prod.snd := by
          simp
        rw [hval]
        have hold : ((groupByRoot ps).map Prod.snd)
            = A.map Prod.snd ++ g.2 :: B.map Prod.snd := by
          rw [hdec]
          simp
        rw [hold] at ih3
        rw [List.flatten_append, List.flatten_cons] at ih3 ⊢
        rw [List.map_append]
        simp only [List.map_cons, List.map_nil]
        have hassoc1 : (g.2 ++ [p.1]) ++ (B.map Prod.snd).flatten
            = g.2 ++ ([p.1] ++ (B.map Prod.snd).flatten) := by
          rw [List.append_assoc]
        rw [hassoc1]
        have hstep : ((A.map Prod.snd).flatten
              ++ (g.2 ++ ([p.1] ++ (B.map Prod.snd).flatten))).Perm
            ((A.map Prod.snd).flatten
              ++ (g.2 ++ ((B.map Prod.snd).flatten ++ [p.1]))) :=
          List.Perm.append_left _ (List.Perm.append_left _ List.perm_append_comm)
        refine hstep.trans ?_
        have hassoc2 : (A.map Prod.snd).flatten
              ++ (g.2 ++ ((B.map Prod.snd).flatten ++ [p.1]))
            = ((A.map Prod.snd).flatten ++ (g.2 ++ (B.map Prod.snd).flatten)) ++ [p.1] := by
          simp [List.append_assoc]
        rw [hassoc2]
        exact ih3.append_right [p.1]
    · rw [if_neg (by rw [gfind_isSome]; exact hr)]
      have hps : p.2 ∉ ps.map Prod.snd := by
        intro hc
        exact hr (by rw [ih1, mem_dedupKeys]; exact hc)
      refine ⟨?_, ?_, ?_⟩
      · simp only [List.map_append, List.map_cons, List.map_nil]
        rw [ih1, dedupKeys_snoc]
        have : p.2 ∉ dedupKeys (ps.map Prod.snd) := by
          rw [mem_dedupKeys]; exact hps
        rw [addNew, if_neg this]
      · intro g2 hg2
        rcases List.mem_append.mp hg2 with hg2 | hg2
        · have hg2r : p.2 ≠ g2.1 := by
            intro hc
            exact hr (hc ▸ List.mem_map_of_mem Prod.fst hg2)
          rw [List.filter_append]
          have : List.filter (fun z => z.2 = g2.1) [p] = [] := by simp [hg2r]
          rw [this, List.append_nil]
          exact ih2 g2 hg2
        · have hg2e : g2 = (p.2, [p.1]) := by simpa using hg2
          rw [hg2e]
          simp only
          rw [List.filter_append]
          have h1 : List.filter (fun z => z.2 = p.2) ps = [] := by
            rw [List.filter_eq_nil_iff]
            intro z hz hc
            exact hps (by
              have : z.2 = p.2 := by simpa using hc
              exact this ▸ List.mem_map_of_mem Prod.snd hz)
          have h2 : List.filter (fun z => z.2 = p.2) [p] = [p] := by simp
          rw [h1, h2]
          rfl
      · rw [List.map_append, List.map_append]
        rw [List.flatten_append]
        simp only [List.map_cons, List.map_nil, List.flatten_cons, List.flatten_nil]
        rw [List.append_nil]
        exact ih3.append_right [p.1]

/-! ## The stable size-descending sort -/

theorem insertDesc_perm (g : List String) :
    ∀ l : List (List String), List.Perm (insertDesc g l) (g :: l) := by
  intro l
  induction l with
  | nil => exact List.Perm.refl _
  | cons h t ih =>
    rw [insertDesc]
    by_cases hc : g.length < h.length
    · rw [if_pos hc]
      exact (ih.cons h).trans (List.Perm.swap g h t)
    · rw [if_neg hc]

theorem sortBySizeDesc_perm :
    ∀ l : List (List String), List.Perm (sortBySizeDesc l) l := by
  intro l
  induction l with
  | nil => exact List.Perm.refl _
  | cons x xs ih =>
    rw [sortBySizeDesc]
    exact (insertDesc_perm x (sortBySizeDesc xs)).trans (ih.cons x)

theorem pairwise_insertDesc (g : List String) :
    ∀ l : List (List String),
      l.Pairwise (fun A B => B.length ≤ A.length) →
      (insertDesc g l).Pairwise (fun A B => B.length ≤ A.length) := by
  intro l
  induction l with
  | nil =>
    intro _
    exact List.pairwise_singleton _ g
  | cons h t ih =>
    intro hp
    obtain ⟨hh, ht⟩ := List.pairwise_cons.mp hp
    rw [insertDesc]
    by_cases hc : g.length < h.length
    · rw [if_pos hc]
      refine List.pairwise_cons.mpr ⟨?_, ih ht⟩
      intro z hz
      have hz2 : z ∈ g :: t := (insertDesc_perm g t).mem_iff.mp hz
      rcases List.mem_cons.mp hz2 with hz2 | hz2
      · rw [hz2]; omega
      · exact hh z hz2
    · rw [if_neg hc]
      refine List.pairwise_cons.mpr ⟨?_, hp⟩
      intro z hz
      rcases List.mem_cons.mp hz with hz | hz
      · rw [hz]; omega
      · have := hh z hz
        omega

theorem sortBySizeDesc_sorted :
    ∀ l : List (List String),
      (sortBySizeDesc l).Pairwise (fun A B => B.length ≤ A.length) := by
  intro l
  induction l with
  | nil => exact List.Pairwise.nil
  | cons x xs ih =>
    rw [sortBySizeDesc]
    exact pairwise_insertDesc x _ ih

/-! ## The assignment dict: flat form and lookups -/

theorem nfind_isSome (acc : List (String × Nat)) (r : String) :
    ((acc.find? (fun q => q.1 = r)).isSome = true) ↔ r ∈ acc.map Prod.fst := by
  rw [List.find?_isSome]
  constructor
  · intro ⟨q, hq, hq2⟩
    have : q.1 = r := by simpa using hq2
    rw [← this]
    exact List.mem_map_of_mem Prod.fst hq
  · intro h
    obtain ⟨q, hq, hq2⟩ := List.mem_map.mp h
    exact ⟨q, hq, by simpa using hq2⟩

theorem foldl_dictInsertNat_fresh :
    ∀ (es : List String) (i : Nat) (acc : List (String × Nat)),
      es.Nodup →
      (∀ e ∈ es, e ∉ acc.map Prod.fst) →
      es.foldl (fun a2 e => dictInsertNat a2 e i) acc
        = acc ++ es.map (fun e => (e, i)) := by
  intro es
  induction es with
  | nil => intro i acc _ _; simp
  | cons e rest ih =>
    intro i acc hnd hfresh
    obtain ⟨hnotmem, hndrest⟩ := List.nodup_cons.mp hnd
    rw [List.foldl_cons]
    have hnot : ¬((acc.find? (fun q => q.1 = e)).isSome = true) := by
      rw [nfind_isSome]
      exact hfresh e (List.mem_cons_self e rest)
    have hstep : dictInsertNat acc e i = acc ++ [(e, i)] := by
      rw [dictInsertNat, if_neg hnot]
    rw [hstep, ih i (acc ++ [(e, i)]) hndrest ?_]
    · simp
    · intro e2 he2 hc
      rw [List.map_append] at hc
      rcases List.mem_append.mp hc with hc | hc
      · exact hfresh e2 (List.mem_cons_of_mem e he2) hc
      · have : e2 = e := by simpa using hc
        exact hnotmem (this ▸ he2)

theorem assign_foldl_eq_flat :
    ∀ (L : List (Nat × List String)) (acc : List (String × Nat)),
      (acc.map Prod.fst ++ (L.map Prod.snd).flatten).Nodup →
      L.foldl (fun a p => p.2.foldl (fun a2 e => dictInsertNat a2 e p.1) a) acc
        = acc ++ L.flatMap (fun p => p.2.map (fun e => (e, p.1))) := by
  intro L
  induction L with
  | nil => intro acc _; simp
  | cons p rest ih =>
    intro acc hnd
    rw [List.map_cons, List.flatten_cons] at hnd
    have hnd2 : (acc.map Prod.fst ++ (p.2 ++ (rest.map Prod.snd).flatten)).Nodup := hnd
    rw [List.foldl_cons]
    have hp2nd : p.2.Nodup := by
      rw [List.nodup_append, List.nodup_append] at hnd2
      exact hnd2.2.1.1
    have hfresh : ∀ e ∈ p.2, e ∉ acc.map Prod.fst := by
      rw [List.nodup_append] at hnd2
      intro e he hc
      exact hnd2.2.2 hc (List.mem_append_left _ he)
    rw [foldl_dictInsertNat_fresh p.2 p.1 acc hp2nd hfresh]
    rw [ih (acc ++ p.2.map (fun e => (e, p.1))) ?_]
    · simp
    · rw [List.map_append]
      have hmfst : (p.2.map (fun e => (e, p.1))).map Prod.fst = p.2 := by
        rw [List.map_map]
        have hcomp2 : (Prod.fst ∘ fun e : String => (e, p.1)) = id := rfl
        rw [hcomp2, List.map_id]
      rw [hmfst, List.append_assoc]
      exact hnd2

theorem alookupNat_group_append :
    ∀ (g : List String) (n : Nat) (rest : List (String × Nat)) (e : String),
      alookupNat (g.map (fun q => (q, n)) ++ rest) e
        = if e ∈ g then some n else alookupNat rest e := by
  intro g
  induction g with
  | nil => intro n rest e; simp
  | cons y t ih =>
    intro n rest e
    rw [List.map_cons, List.cons_append]
    by_cases hy : y = e
    · rw [show alookupNat ((y, n) :: (t.map (fun q => (q, n)) ++ rest)) e
          = some n by simp [alookupNat, hy]]
      rw [if_pos (by rw [← hy]; exact List.mem_cons_self y t)]
    · rw [show alookupNat ((y, n) :: (t.map (fun q => (q, n)) ++ rest)) e
          = alookupNat (t.map (fun q => (q, n)) ++ rest) e by simp [alookupNat, hy]]
      rw [ih n rest e]
      by_cases he : e ∈ t
      · rw [if_pos he, if_pos (List.mem_cons_of_mem y he)]
      · rw [if_neg he, if_neg (by
          intro hc
          rcases List.mem_cons.mp hc with hc | hc
          · exact hy hc.symm
          · exact he hc)]

theorem assign_map_fst :
    ∀ (L : List (List String)) (n : Nat),
      ((L.enumFrom n).flatMap (fun p => p.2.map (fun q => (q, p.1)))).map Prod.fst
        = L.flatten := by
  intro L
  induction L with
  | nil => intro n; rfl
  | cons g t ih =>
    intro n
    rw [List.enumFrom_cons, List.flatMap_cons, List.map_append, ih (n + 1),
      List.flatten_cons]
    congr 1
    rw [List.map_map]
    have hcomp : (Prod.fst ∘ fun q : String => (q, n)) = id := rfl
    rw [hcomp, List.map_id]

theorem assign_lookup_from :
    ∀ (L : List (List String)) (n : Nat) (e : String),
      (e ∉ L.flatten →
        alookupNat ((L.enumFrom n).flatMap (fun p => p.2.map (fun q => (q, p.1)))) e
          = none)
      ∧ (∀ i (hi : i < L.length), e ∈ L.get ⟨i, hi⟩ →
          (∀ j (hj : j < L.length), j < i → e ∉ L.get ⟨j, hj⟩) →
          alookupNat ((L.enumFrom n).flatMap (fun p => p.2.map (fun q => (q, p.1)))) e
            = some (n + i)) := by
  intro L
  induction L with
  | nil =>
    intro n e
    refine ⟨fun _ => rfl, ?_⟩
    intro i hi
    exact absurd hi (by simp)
  | cons g t ih =>
    intro n e
    rw [List.enumFrom_cons, List.flatMap_cons]
    constructor
    · intro hne
      rw [List.flatten_cons] at hne
      have hng : e ∉ g := fun h => hne (List.mem_append_left _ h)
      have hnt : e ∉ t.flatten := fun h => hne (List.mem_append_right _ h)
      rw [show ((n, g).2.map (fun q => (q, (n, g).1))) = g.map (fun q => (q, n)) from rfl]
      rw [alookupNat_group_append, if_neg hng]
      exact (ih (n + 1) e).1 hnt
    · intro i hi he hfirst
      rw [show ((n, g).2.map (fun q => (q, (n, g).1))) = g.map (fun q => (q, n)) from rfl]
      rw [alookupNat_group_append]
      cases i with
      | zero =>
        rw [if_pos (by simpa using he)]
        simp
      | succ i2 =>
        have hng : e ∉ g := by
          have := hfirst 0 (by simp) (by omega)
          simpa using this
        rw [if_neg hng]
        have hi2 : i2 < t.length := by simpa using hi
        have he2 : e ∈ t.get ⟨i2, hi2⟩ := by simpa using he
        have hfirst2 : ∀ j (hj : j < t.length), j < i2 → e ∉ t.get ⟨j, hj⟩ := by
          intro j hj hji hc
          exact hfirst (j + 1) (by simpa using Nat.succ_lt_succ hj)
            (Nat.succ_lt_succ hji) (by simpa using hc)
        rw [(ih (n + 1) e).2 i2 hi2 he2 hfirst2]
        congr 1
        omega

theorem flatten_nodup_unique_idx :
    ∀ (L : List (List String)), L.flatten.Nodup →
      ∀ (e : String) (i j : Nat) (hi : i < L.length) (hj : j < L.length),
        e ∈ L.get ⟨i, hi⟩ → e ∈ L.get ⟨j, hj⟩ → i = j := by
  intro L
  induction L with
  | nil => intro _ e i j hi; exact absurd hi (by simp)
  | cons g t ih =>
    intro hnd e i j hi hj hei hej
    rw [List.flatten_cons, List.nodup_append] at hnd
    obtain ⟨hg, ht, hdisj⟩ := hnd
    cases i with
    | zero =>
      cases j with
      | zero => rfl
      | succ j2 =>
        have heg : e ∈ g := by simpa using hei
        have hjt : j2 < t.length := by simpa using hj
        have het : e ∈ t.get ⟨j2, hjt⟩ := by simpa using hej
        have : e ∈ t.flatten := by
          rw [List.mem_flatten]
          exact ⟨t.get ⟨j2, hjt⟩, List.get_mem t j2 hjt, het⟩
        exact absurd this (hdisj heg)
    | succ i2 =>
      cases j with
      | zero =>
        have heg : e ∈ g := by simpa using hej
        have hit : i2 < t.length := by simpa using hi
        have het : e ∈ t.get ⟨i2, hit⟩ := by simpa using hei
        have : e ∈ t.flatten := by
          rw [List.mem_flatten]
          exact ⟨t.get ⟨i2, hit⟩, List.get_mem t i2 hit, het⟩
        exact absurd this (hdisj heg)
      | succ j2 =>
        have hit : i2 < t.length := by simpa using hi
        have hjt : j2 < t.length := by simpa using hj
        have h1 : e ∈ t.get ⟨i2, hit⟩ := by simpa using hei
        have h2 : e ∈ t.get ⟨j2, hjt⟩ := by simpa using hej
        have := ih ht e i2 j2 hit hjt h1 h2
        omega

theorem communityAssignment_eq_flat (rows : List (String × List (Option String)))
    (hflat : (communityList rows).flatten.Nodup) :
    communityAssignment rows
      = (communityList rows).enum.flatMap (fun p => p.2.map (fun e => (e, p.1))) := by
  rw [communityAssignment]
  rw [assign_foldl_eq_flat _ [] ?_]
  · rw [List.nil_append]
  · rw [List.map_nil, List.nil_append, List.enum_map_snd]
    exact hflat

theorem assign_lookup_mem {L : List (List String)} (hnd : L.flatten.Nodup)
    {e : String} {i : Nat} (hi : i < L.length) (he : e ∈ L.get ⟨i, hi⟩) :
    alookupNat (L.enum.flatMap (fun p => p.2.map (fun q => (q, p.1)))) e = some i := by
  have hfirst : ∀ j (hj : j < L.length), j < i → e ∉ L.get ⟨j, hj⟩ := by
    intro j hj hji hc
    have := flatten_nodup_unique_idx L hnd e i j hi hj he hc
    omega
  have := (assign_lookup_from L 0 e).2 i hi he hfirst
  rw [List.enum]
  rw [this]
  congr 1
  omega

theorem assign_lookup_not_mem {L : List (List String)} {e : String}
    (he : e ∉ L.flatten) :
    alookupNat (L.enum.flatMap (fun p => p.2.map (fun q => (q, p.1)))) e = none := by
  have := (assign_lookup_from L 0 e).1 he
  rw [List.enum]
  exact this

/-! ## entities_data under distinct row keys, and the C8 / C2 claims -/

theorem buildEntitiesData_eq (rows : List (String × List (Option String)))
    (h : (rows.map Prod.fst).Nodup) :
    buildEntitiesData rows = rows.map (fun r => (r.1, r.2.filterMap id)) := by
  suffices haux : ∀ (rows : List (String × List (Option String)))
      (acc : List (String × List String)),
      (∀ k ∈ rows.map Prod.fst, k ∉ acc.map Prod.fst) →
      (rows.map Prod.fst).Nodup →
      rows.foldl (fun acc row => dictInsert acc row.1 (row.2.filterMap id)) acc
        = acc ++ rows.map (fun r => (r.1, r.2.filterMap id)) by
    have := haux rows [] (by simp) h
    rw [buildEntitiesData, this, List.nil_append]
  intro rows
  induction rows with
  | nil => intro acc _ _; simp
  | cons row rest ih =>
    intro acc hfresh hnd
    rw [List.map_cons] at hnd
    obtain ⟨hnotmem, hndrest⟩ := List.nodup_cons.mp hnd
    rw [List.foldl_cons]
    have hnot : ¬((acc.find? (fun p => p.1 = row.1)).isSome = true) := by
      rw [gfind_isSome]
      exact hfresh row.1 (by simp)
    have hstep : dictInsert acc row.1 (row.2.filterMap id)
        = acc ++ [(row.1, row.2.filterMap id)] := by
      rw [dictInsert, if_neg hnot]
    rw [hstep, ih (acc ++ [(row.1, row.2.filterMap id)]) ?_ hndrest]
    · simp
    · intro k hk hc
      rw [List.map_append] at hc
      rcases List.mem_append.mp hc with hc | hc
      · exact hfresh k (List.mem_cons_of_mem _ hk) hc
      · have : k = row.1 := by simpa using hc
        exact hnotmem (this ▸ hk)

/-- C8: in the statistics dict returned by calculate_communities,
relationshipCount is the sum over all fetched entity rows of the length of
the row's null-filtered neighbour list, integer-divided by two — also for
asymmetric adjacency inputs.  The hypothesis that row keys are distinct is
guaranteed by the store query, which aggregates connections per entity
name. -/
theorem relationship_count_halved (rows : List (String × List (Option String)))
    (hnodup : (rows.map Prod.fst).Nodup) :
    (calculate_communities rows).2.relationshipCount
      = (rows.map (fun row => (row.2.filterMap id).length)).sum / 2 := by
  show ((buildEntitiesData rows).map (fun p => p.2.length)).sum / 2 = _
  rw [buildEntitiesData_eq rows hnodup, List.map_map]
  rfl

theorem relationship_count_halved_witness :
    (calculate_communities [("A", [some "B"]), ("B", [])]).2.relationshipCount
      = ([("A", [some "B"]), ("B", [])].map
          (fun row : String × List (Option String) =>
            (row.2.filterMap id).length)).sum / 2 :=
  relationship_count_halved [("A", [some "B"]), ("B", [])] (by decide)

set_option maxRecDepth 20000 in
/-- C2: community ids are assigned by descending group size — the group at
any position of community_list is at least as large as every later group,
so the largest component gets id 0 — and on the concrete 5/3/3/1-component
input the size-5 component gets id 0 while the size-1 singleton gets the
highest id 3; equal-size groups keep their deterministic grouping order
(the sort model is the stable insertion the Python sorted guarantees). -/
theorem community_ids_by_descending_size :
    (∀ (rows : List (String × List (Option String)))
        (i j : Fin (communityList rows).length),
        i ≤ j →
        ((communityList rows).get j).length ≤ ((communityList rows).get i).length)
    ∧ (communityList exampleRows5331).map List.length = [5, 3, 3, 1]
    ∧ (∀ e ∈ ["A1", "A2", "A3", "A4", "A5"],
        alookupNat (communityAssignment exampleRows5331) e = some 0)
    ∧ alookupNat (communityAssignment exampleRows5331) "D" = some 3
    ∧ (∀ p ∈ communityAssignment exampleRows5331, p.2 ≤ 3) := by
  refine ⟨?_, by decide, by decide, by decide, by decide⟩
  intro rows i j hij
  have hp : (communityList rows).Pairwise (fun A B => B.length ≤ A.length) := by
    rw [communityList]
    exact sortBySizeDesc_sorted _
  rcases Nat.lt_or_ge i.val j.val with hlt | hge
  · exact List.pairwise_iff_get.mp hp i j hlt
  · have : i = j := Fin.le_antisymm hij hge
    rw [this]

set_option maxRecDepth 20000 in
theorem community_ids_by_descending_size_witness :
    ((communityList exampleRows5331).get
        ⟨3, by decide⟩).length
      ≤ ((communityList exampleRows5331).get ⟨0, by decide⟩).length :=
  community_ids_by_descending_size.1 exampleRows5331
    ⟨0, by decide⟩ ⟨3, by decide⟩ (by decide)

/-! ## Edge relations and the C3 claim -/

theorem eqvGen_iff_of_sub {α : Type} {R S : α → α → Prop}
    (h1 : ∀ u v, R u v → Relation.EqvGen S u v)
    (h2 : ∀ u v, S u v → Relation.EqvGen R u v) (a b : α) :
    Relation.EqvGen R a b ↔ Relation.EqvGen S a b := by
  constructor
  · intro h
    induction h with
    | rel u v huv => exact h1 u v huv
    | refl u => exact Relation.EqvGen.refl u
    | symm u v _ ih => exact Relation.EqvGen.symm u v ih
    | trans u v w _ _ ih1 ih2 => exact Relation.EqvGen.trans u v w ih1 ih2
  · intro h
    induction h with
    | rel u v huv => exact h2 u v huv
    | refl u => exact Relation.EqvGen.refl u
    | symm u v _ ih => exact Relation.EqvGen.symm u v ih
    | trans u v w _ _ ih1 ih2 => exact Relation.EqvGen.trans u v w ih1 ih2

theorem eqvGen_isolated {α : Type} {R : α → α → Prop} {e : α}
    (hiso : ∀ z, ¬R e z ∧ ¬R z e) {a b : α}
    (h : Relation.EqvGen R a b) : (a = e → b = e) ∧ (b = e → a = e) := by
  induction h with
  | rel u v huv =>
    constructor
    · intro hu
      exact absurd (hu ▸ huv) (hiso v).1
    · intro hv
      exact absurd (hv ▸ huv) (hiso u).2
  | refl u => exact ⟨id, id⟩
  | symm u v _ ih => exact ⟨ih.2, ih.1⟩
  | trans u v w _ _ ih1 ih2 =>
    exact ⟨fun h => ih2.1 (ih1.1 h), fun h => ih1.2 (ih2.2 h)⟩

theorem mem_unionPairs {ed : List (String × List String)} {u v : String} :
    (u, v) ∈ unionPairs ed ↔ ∃ p ∈ ed, p.1 = u ∧ v ∈ p.2 := by
  rw [unionPairs, List.mem_flatMap]
  constructor
  · intro ⟨p, hp, hm⟩
    obtain ⟨c, hc, he⟩ := List.mem_map.mp hm
    have h1 : p.1 = u := congrArg Prod.fst he
    have h2 : c = v := congrArg Prod.snd he
    exact ⟨p, hp, h1, h2 ▸ hc⟩
  · intro ⟨p, hp, h1, h2⟩
    exact ⟨p, hp, List.mem_map.mpr ⟨v, h2, by rw [h1]⟩⟩

theorem rowEdge_symm {rows : List (String × List (Option String))} {a b : String}
    (h : rowEdge rows a b) : rowEdge rows b a := by
  obtain ⟨row, hrow, hc⟩ := h
  exact ⟨row, hrow, hc.symm⟩

theorem eqvGen_unionPairs_iff_rowEdge
    (rows : List (String × List (Option String)))
    (hnodup : (rows.map Prod.fst).Nodup) (a b : String) :
    Relation.EqvGen (pairRel (unionPairs (buildEntitiesData rows))) a b
      ↔ Relation.EqvGen (rowEdge rows) a b := by
  have hed : buildEntitiesData rows = rows.map (fun r => (r.1, r.2.filterMap id)) :=
    buildEntitiesData_eq rows hnodup
  have hdir : ∀ u v, pairRel (unionPairs (buildEntitiesData rows)) u v ↔
      ∃ row ∈ rows, row.1 = u ∧ v ∈ row.2.filterMap id := by
    intro u v
    rw [pairRel, mem_unionPairs, hed]
    constructor
    · intro ⟨p, hp, h1, h2⟩
      obtain ⟨row, hrow, he⟩ := List.mem_map.mp hp
      refine ⟨row, hrow, ?_, ?_⟩
      · rw [← h1, ← he]
      · rw [← he] at h2
        exact h2
    · intro ⟨row, hrow, h1, h2⟩
      exact ⟨(row.1, row.2.filterMap id), List.mem_map_of_mem _ hrow, h1, h2⟩
  refine eqvGen_iff_of_sub ?_ ?_ a b
  · intro u v huv
    refine Relation.EqvGen.rel u v ?_
    obtain ⟨row, hrow, h1, h2⟩ := (hdir u v).mp huv
    exact ⟨row, hrow, Or.inl ⟨h1, h2⟩⟩
  · intro u v huv
    obtain ⟨row, hrow, hc⟩ := huv
    rcases hc with ⟨h1, h2⟩ | ⟨h1, h2⟩
    · exact Relation.EqvGen.rel u v ((hdir u v).mpr ⟨row, hrow, h1, h2⟩)
    · exact Relation.EqvGen.symm _ _
        (Relation.EqvGen.rel v u ((hdir v u).mpr ⟨row, hrow, h1, h2⟩))

theorem shared_group_ufEquiv (rows : List (String × List (Option String)))
    {g : List String} (hg : g ∈ communityList rows) {a b : String}
    (ha : a ∈ g) (hb : b ∈ g) : ufEquiv (unionState rows) a b := by
  obtain ⟨hGkeys, hGval, hGperm⟩ :=
    groupByRoot_char (rootPairs (unionState rows) (buildAllEntities rows))
  obtain ⟨hpsfst, hpsroot⟩ :=
    rootPairs_spec (unionState_spec rows).1 (buildAllEntities rows)
  rw [communityList] at hg
  have hgV : g ∈ (groupByRoot
      (rootPairs (unionState rows) (buildAllEntities rows))).map
        (fun g => g.2) :=
    (sortBySizeDesc_perm _).mem_iff.mp hg
  obtain ⟨gr, hgr, hgr2⟩ := List.mem_map.mp hgV
  have hval := hGval gr hgr
  rw [← hgr2, hval] at ha hb
  obtain ⟨qa, hqa, hqa1⟩ := List.mem_map.mp ha
  obtain ⟨qb, hqb, hqb1⟩ := List.mem_map.mp hb
  obtain ⟨hqa2, hqa3⟩ := List.mem_filter.mp hqa
  obtain ⟨hqb2, hqb3⟩ := List.mem_filter.mp hqb
  have hra : rootOf (unionState rows) a gr.1 := by
    have := hpsroot qa hqa2
    rw [hqa1] at this
    rw [show qa.2 = gr.1 by simpa using hqa3] at this
    exact this
  have hrb : rootOf (unionState rows) b gr.1 := by
    have := hpsroot qb hqb2
    rw [hqb1] at this
    rw [show qb.2 = gr.1 by simpa using hqb3] at this
    exact this
  exact ⟨gr.1, hra, hrb⟩

theorem ufEquiv_shared_group (rows : List (String × List (Option String)))
    {a b : String} (ha : a ∈ buildAllEntities rows)
    (hb : b ∈ buildAllEntities rows)
    (h : ufEquiv (unionState rows) a b) :
    ∃ g ∈ communityList rows, a ∈ g ∧ b ∈ g := by
  obtain ⟨hGkeys, hGval, hGperm⟩ :=
    groupByRoot_char (rootPairs (unionState rows) (buildAllEntities rows))
  obtain ⟨hpsfst, hpsroot⟩ :=
    rootPairs_spec (unionState_spec rows).1 (buildAllEntities rows)
  obtain ⟨r, hra, hrb⟩ := h
  rw [← hpsfst] at ha hb
  obtain ⟨pa, hpa, hpa1⟩ := List.mem_map.mp ha
  obtain ⟨pb, hpb, hpb1⟩ := List.mem_map.mp hb
  have hpar : pa.2 = r := by
    have h1 := hpsroot pa hpa
    rw [hpa1] at h1
    exact rootOf_unique h1 hra
  have hpbr : pb.2 = r := by
    have h1 := hpsroot pb hpb
    rw [hpb1] at h1
    exact rootOf_unique h1 hrb
  have hrkeys : r ∈ (groupByRoot
      (rootPairs (unionState rows) (buildAllEntities rows))).map Prod.fst := by
    rw [hGkeys, mem_dedupKeys]
    rw [← hpar]
    exact List.mem_map_of_mem Prod.snd hpa
  obtain ⟨gr, hgr, hgr1⟩ := List.mem_map.mp hrkeys
  refine ⟨gr.2, ?_, ?_, ?_⟩
  · rw [communityList]
    refine (sortBySizeDesc_perm _).mem_iff.mpr ?_
    exact List.mem_map.mpr ⟨gr, hgr, rfl⟩
  · rw [hGval gr hgr]
    refine List.mem_map.mpr ⟨pa, ?_, hpa1⟩
    refine List.mem_filter.mpr ⟨hpa, ?_⟩
    simp [hpar, hgr1]
  · rw [hGval gr hgr]
    refine List.mem_map.mpr ⟨pb, ?_, hpb1⟩
    refine List.mem_filter.mpr ⟨hpb, ?_⟩
    simp [hpbr, hgr1]

theorem communityList_flatten_perm (rows : List (String × List (Option String))) :
    List.Perm (communityList rows).flatten (buildAllEntities rows) := by
  obtain ⟨hGkeys, hGval, hGperm⟩ :=
    groupByRoot_char (rootPairs (unionState rows) (buildAllEntities rows))
  obtain ⟨hpsfst, _⟩ :=
    rootPairs_spec (unionState_spec rows).1 (buildAllEntities rows)
  rw [communityList]
  refine ((sortBySizeDesc_perm _).flatten.trans ?_)
  rw [hpsfst] at hGperm
  exact hGperm

theorem communityList_flatten_nodup (rows : List (String × List (Option String))) :
    (communityList rows).flatten.Nodup :=
  (communityList_flatten_perm rows).symm.nodup (buildAllEntities_nodup rows)

/-- C3: on rows with distinct entity keys (as the aggregating store query
returns), the community assignment is a partition of all_entities: its
domain is exactly the set of entities appearing as a row key or inside an
adjacency list, each assigned one id; two entities get the same id exactly
when a path of relationship edges connects them; and an entity with no
relationship edge shares its id with nobody else, forming a singleton
community. -/
theorem community_assignment_partition
    (rows : List (String × List (Option String)))
    (hnodup : (rows.map Prod.fst).Nodup) :
    ((communityAssignment rows).map Prod.fst).Perm (buildAllEntities rows)
    ∧ (∀ e, e ∈ buildAllEntities rows
        ↔ ∃ row ∈ rows, row.1 = e ∨ e ∈ row.2.filterMap id)
    ∧ (∀ a ∈ buildAllEntities rows, ∀ b ∈ buildAllEntities rows,
        (alookupNat (communityAssignment rows) a
            = alookupNat (communityAssignment rows) b
          ↔ Relation.EqvGen (rowEdge rows) a b))
    ∧ (∀ e ∈ buildAllEntities rows, (∀ z, ¬rowEdge rows e z) →
        ∀ b ∈ buildAllEntities rows,
          alookupNat (communityAssignment rows) b
              = alookupNat (communityAssignment rows) e → b = e) := by
  have hSnd := communityList_flatten_nodup rows
  have hFperm := communityList_flatten_perm rows
  have hasg := communityAssignment_eq_flat rows hSnd
  have henum : (communityList rows).enum = (communityList rows).enumFrom 0 := rfl
  have hmain : ∀ a ∈ buildAllEntities rows, ∀ b ∈ buildAllEntities rows,
      (alookupNat (communityAssignment rows) a
          = alookupNat (communityAssignment rows) b
        ↔ Relation.EqvGen (rowEdge rows) a b) := by
    intro a ha b hb
    have haf : a ∈ (communityList rows).flatten := hFperm.mem_iff.mpr ha
    have hbf : b ∈ (communityList rows).flatten := hFperm.mem_iff.mpr hb
    obtain ⟨ga, hgaS, haga⟩ := List.mem_flatten.mp haf
    obtain ⟨gb, hgbS, hbgb⟩ := List.mem_flatten.mp hbf
    obtain ⟨ia, hia⟩ := List.mem_iff_get.mp hgaS
    obtain ⟨ib, hib⟩ := List.mem_iff_get.mp hgbS
    have hlka : alookupNat (communityAssignment rows) a = some ia.val := by
      rw [hasg]
      exact assign_lookup_mem hSnd ia.isLt (by rw [hia]; exact haga)
    have hlkb : alookupNat (communityAssignment rows) b = some ib.val := by
      rw [hasg]
      exact assign_lookup_mem hSnd ib.isLt (by rw [hib]; exact hbgb)
    constructor
    · intro heq
      rw [hlka, hlkb] at heq
      have hiab : ia.val = ib.val := Option.some_injective _ heq
      have hbga : b ∈ ga := by
        rw [← hia]
        have : ia = ib := Fin.ext hiab
        rw [this, hib]
        exact hbgb
      have huf : ufEquiv (unionState rows) a b :=
        shared_group_ufEquiv rows hgaS haga hbga
      rw [← eqvGen_unionPairs_iff_rowEdge rows hnodup a b]
      exact ((unionState_spec rows).2 a b).mp huf
    · intro hEq
      have huf : ufEquiv (unionState rows) a b :=
        ((unionState_spec rows).2 a b).mpr
          ((eqvGen_unionPairs_iff_rowEdge rows hnodup a b).mpr hEq)
      obtain ⟨g, hgS, hag, hbg⟩ := ufEquiv_shared_group rows ha hb huf
      obtain ⟨k, hk⟩ := List.mem_iff_get.mp hgS
      have h1 : alookupNat (communityAssignment rows) a = some k.val := by
        rw [hasg]
        exact assign_lookup_mem hSnd k.isLt (by rw [hk]; exact hag)
      have h2 : alookupNat (communityAssignment rows) b = some k.val := by
        rw [hasg]
        exact assign_lookup_mem hSnd k.isLt (by rw [hk]; exact hbg)
      rw [h1, h2]
  refine ⟨?_, fun e => mem_buildAllEntities rows e, hmain, ?_⟩
  · rw [hasg, henum, assign_map_fst]
    exact hFperm
  · intro e he hiso b hb heq
    have hiso2 : ∀ z, ¬rowEdge rows e z ∧ ¬rowEdge rows z e :=
      fun z => ⟨hiso z, fun h => hiso z (rowEdge_symm h)⟩
    have hEq : Relation.EqvGen (rowEdge rows) b e := (hmain b hb e he).mp heq
    exact (eqvGen_isolated hiso2 hEq).2 rfl

set_option maxRecDepth 20000 in
theorem community_assignment_partition_witness :
    ((communityAssignment [("A", [some "B"]), ("B", []), ("D", [])]).map
        Prod.fst).Perm
      (buildAllEntities [("A", [some "B"]), ("B", []), ("D", [])]) :=
  (community_assignment_partition
    [("A", [some "B"]), ("B", []), ("D", [])] (by decide)).1
